import Mathlib

/-!
Shallow embedding of the xor-filter library (`src/lib.rs`) and proofs about it.

Machine integers are modelled as `Nat` with explicit `% 2^64` / `% 2^32`
written exactly where the Rust code wraps (`wrapping_mul`, `wrapping_add`,
`as u32`, `as u8`, `rotate_left`).  Fallible operations (`from_bytes`,
indexing that can panic) return `Option`; `none` models `Err(..)` or a panic.
The pluggable `BuildHasher` capability is external to the core (the spec
excludes it), so key digests are taken as already-computed `u64` values.
-/

set_option maxHeartbeats 1000000

namespace Xorfilter

/-- `murmur64` from lib.rs: three rounds of xor-shift / wrapping multiply. -/
def murmur64 (h0 : Nat) : Nat :=
  let h1 := h0 ^^^ (h0 >>> 33)
  let h2 := h1 * 0xff51afd7ed558ccd % 2 ^ 64
  let h3 := h2 ^^^ (h2 >>> 33)
  let h4 := h3 * 0xc4ceb9fe1a85ec53 % 2 ^ 64
  h4 ^^^ (h4 >>> 33)

/-- `splitmix64` from lib.rs.  Takes the current counter state and returns
the pair (new state, random output); the Rust function mutates the seed
in place and returns the output. -/
def splitmix64 (seed : Nat) : Nat × Nat :=
  let s := (seed + 0x9E3779B97F4A7C15) % 2 ^ 64
  let z0 := s
  let z1 := (z0 ^^^ (z0 >>> 30)) * 0xBF58476D1CE4E5B9 % 2 ^ 64
  let z2 := (z1 ^^^ (z1 >>> 27)) * 0x94D049BB133111EB % 2 ^ 64
  (s, z2 ^^^ (z2 >>> 31))

/-- `mixsplit` from lib.rs: `murmur64(key.wrapping_add(seed))`. -/
def mixsplit (key seed : Nat) : Nat :=
  murmur64 ((key + seed) % 2 ^ 64)

/-- `reduce` from lib.rs: `((hash as u64) * (n as u64)) >> 32`. -/
def reduce (hash n : Nat) : Nat :=
  hash * n / 2 ^ 32

/-- `fingerprint` from lib.rs: `hash ^ (hash >> 32)` (callers truncate with
`as u8`, written `% 256` at the call sites below, as in the source). -/
def fingerprint (hash : Nat) : Nat :=
  hash ^^^ (hash >>> 32)

/-- 64-bit `rotate_left` by `r` bits (for `h < 2^64`, `0 < r < 64`). -/
def rotl64 (h r : Nat) : Nat :=
  (h % 2 ^ (64 - r)) * 2 ^ r + h / 2 ^ (64 - r)

/-- Segment-0 index of a master hash: `reduce(h as u32, bl)` (`geth0`). -/
def geth0 (bl h : Nat) : Nat :=
  reduce (h % 2 ^ 32) bl

/-- Segment-1 index of a master hash: `reduce(h.rotate_left(21) as u32, bl)`
(`geth1`). -/
def geth1 (bl h : Nat) : Nat :=
  reduce (rotl64 h 21 % 2 ^ 32) bl

/-- Segment-2 index of a master hash: `reduce(h.rotate_left(42) as u32, bl)`
(`geth2`). -/
def geth2 (bl h : Nat) : Nat :=
  reduce (rotl64 h 42 % 2 ^ 32) bl

/-- The filter state of `struct Xor8` (lib.rs): pending keys, seed,
block length and fingerprint bytes.  The `hash_builder` field is the
external hashing capability and is not part of the modelled core. -/
structure Xor8 where
  keys : Option (List Nat)
  seed : Nat
  block_length : Nat
  finger_prints : List Nat
deriving DecidableEq

/-- `Xor8::with_hasher` / `Xor8::new` / `Default`: fresh filter with an
empty pending key list, zero seed, zero block length, no fingerprints. -/
def Xor8.with_hasher : Xor8 :=
  { keys := some [], seed := 0, block_length := 0, finger_prints := [] }

/-- `Xor8::insert` (after the external hasher has produced the digest):
push one digest onto the pending list.  `none` models the panic of
`self.keys.as_mut().unwrap()` when `keys` is `None`. -/
def Xor8.insert (f : Xor8) (digest : Nat) : Option Xor8 :=
  match f.keys with
  | none => none
  | some ks => some { f with keys := some (ks ++ [digest]) }

/-- `Xor8::populate_keys`: extend the pending list with precomputed digests.
`none` models the panic of the `unwrap` when `keys` is `None`. -/
def Xor8.populate_keys (f : Xor8) (digests : List Nat) : Option Xor8 :=
  match f.keys with
  | none => none
  | some ks => some { f with keys := some (ks ++ digests) }

/-- `Xor8::contains_key`: recompute the master hash from the stored seed,
derive the three composite indices and compare the xor of the three stored
fingerprints with the hash fingerprint.  The Rust code indexes
`finger_prints` with panicking indexing; `none` models that panic
(out-of-bounds read). -/
def Xor8.contains_key (f : Xor8) (key : Nat) : Option Bool :=
  let hash := mixsplit key f.seed
  let fp := fingerprint hash % 256
  let h0 := reduce (hash % 2 ^ 32) f.block_length
  let h1 := reduce (rotl64 hash 21 % 2 ^ 32) f.block_length + f.block_length
  let h2 := reduce (rotl64 hash 42 % 2 ^ 32) f.block_length + 2 * f.block_length
  match f.finger_prints[h0]?, f.finger_prints[h1]?, f.finger_prints[h2]? with
  | some a, some b, some c => some (fp == a ^^^ b ^^^ c)
  | _, _, _ => none

/-! ## Binary codec (`SIGNATURE_V1`, `to_bytes`, `from_bytes`) -/

/-- Big-endian byte list of the low `k` bytes of `n` (models
`u64::to_be_bytes` with `k = 8` and `u32::to_be_bytes` with `k = 4`). -/
def digitsBE : Nat → Nat → List Nat
  | 0, _ => []
  | k + 1, n => digitsBE k (n / 256) ++ [n % 256]

/-- Big-endian byte-list decoder (models `u64::from_be_bytes` /
`u32::from_be_bytes`). -/
def beDec (l : List Nat) : Nat :=
  l.foldl (fun a b => a * 256 + b) 0

/-- `Xor8::SIGNATURE_V1 = [b'^', b'T', b'L', 1]`. -/
def SIGNATURE_V1 : List Nat := [94, 84, 76, 1]

/-- `Xor8::METADATA_LENGTH = 4 + 8 + 4 + 4`. -/
def METADATA_LENGTH : Nat := 4 + 8 + 4 + 4

/-- `Xor8::to_bytes`: signature, seed (be u64), block_length (be u32),
fingerprint length (be u32, i.e. `len as u32` truncates mod `2^32` which
`digitsBE 4` performs), then the raw fingerprint bytes. -/
def Xor8.to_bytes (f : Xor8) : List Nat :=
  SIGNATURE_V1 ++ digitsBE 8 f.seed ++ digitsBE 4 f.block_length ++
    digitsBE 4 f.finger_prints.length ++ f.finger_prints

/-- `Xor8::from_bytes`: validate length, signature and declared fingerprint
length, then rebuild the filter.  `none` models `Err(InvalidData)`.  Note
the source takes `buf[20..].to_vec()` — every byte after the header, not
just the declared `fingerprint_length` many. -/
def Xor8.from_bytes (buf : List Nat) : Option Xor8 :=
  if buf.length < METADATA_LENGTH then none
  else if buf.take 4 ≠ SIGNATURE_V1 then none
  else
    let fp_len := beDec ((buf.drop 16).take 4)
    if (buf.drop 20).length < fp_len then none
    else
      some { keys := none,
             seed := beDec ((buf.drop 4).take 8),
             block_length := beDec ((buf.drop 12).take 4),
             finger_prints := buf.drop 20 }

/-! ## Codec lemmas -/

theorem digitsBE_length (k n : Nat) : (digitsBE k n).length = k := by
  induction k generalizing n with
  | zero => rfl
  | succ k ih => simp [digitsBE, ih]

theorem beDec_append_singleton (l : List Nat) (b : Nat) :
    beDec (l ++ [b]) = beDec l * 256 + b := by
  simp [beDec, List.foldl_append]

theorem beDec_digitsBE (k n : Nat) : beDec (digitsBE k n) = n % 256 ^ k := by
  induction k generalizing n with
  | zero => simp [digitsBE, beDec, Nat.mod_one]
  | succ k ih =>
    rw [digitsBE, beDec_append_singleton, ih]
    have h256 : (256 : Nat) ^ (k + 1) = 256 * 256 ^ k := by
      rw [pow_succ, Nat.mul_comm]
    rw [h256, Nat.mod_mul]
    omega

theorem beDec_digitsBE8 (n : Nat) : beDec (digitsBE 8 n) = n % 2 ^ 64 := by
  have : (256 : Nat) ^ 8 = 2 ^ 64 := by norm_num
  rw [beDec_digitsBE, this]

theorem beDec_digitsBE4 (n : Nat) : beDec (digitsBE 4 n) = n % 2 ^ 32 := by
  have : (256 : Nat) ^ 4 = 2 ^ 32 := by norm_num
  rw [beDec_digitsBE, this]

theorem to_bytes_length (f : Xor8) :
    f.to_bytes.length = 20 + f.finger_prints.length := by
  simp [Xor8.to_bytes, SIGNATURE_V1, digitsBE_length]
  omega

theorem to_bytes_drop4 (f : Xor8) :
    f.to_bytes.drop 4 = digitsBE 8 f.seed ++ digitsBE 4 f.block_length ++
      digitsBE 4 f.finger_prints.length ++ f.finger_prints := by
  simp [Xor8.to_bytes, SIGNATURE_V1]

theorem to_bytes_drop12 (f : Xor8) :
    f.to_bytes.drop 12 = digitsBE 4 f.block_length ++
      digitsBE 4 f.finger_prints.length ++ f.finger_prints := by
  have h : f.to_bytes.drop 12 = (f.to_bytes.drop 4).drop 8 := by
    rw [List.drop_drop]
  rw [h, to_bytes_drop4]
  rw [List.append_assoc, List.append_assoc]
  rw [List.drop_append_of_le_length (by simp [digitsBE_length])]
  simp [digitsBE_length]

theorem to_bytes_drop16 (f : Xor8) :
    f.to_bytes.drop 16 = digitsBE 4 f.finger_prints.length ++ f.finger_prints := by
  have h : f.to_bytes.drop 16 = (f.to_bytes.drop 12).drop 4 := by
    rw [List.drop_drop]
  rw [h, to_bytes_drop12]
  rw [List.append_assoc]
  rw [List.drop_append_of_le_length (by simp [digitsBE_length])]
  simp [digitsBE_length]

theorem to_bytes_drop20 (f : Xor8) :
    f.to_bytes.drop 20 = f.finger_prints := by
  have h : f.to_bytes.drop 20 = (f.to_bytes.drop 16).drop 4 := by
    rw [List.drop_drop]
  rw [h, to_bytes_drop16]
  rw [List.drop_append_of_le_length (by simp [digitsBE_length])]
  simp [digitsBE_length]

theorem to_bytes_take4 (f : Xor8) : f.to_bytes.take 4 = SIGNATURE_V1 := by
  simp [Xor8.to_bytes, SIGNATURE_V1]

theorem to_bytes_seed_field (f : Xor8) :
    (f.to_bytes.drop 4).take 8 = digitsBE 8 f.seed := by
  rw [to_bytes_drop4, List.append_assoc, List.append_assoc]
  rw [List.take_append_of_le_length (by simp [digitsBE_length])]
  simp [digitsBE_length]

theorem to_bytes_bl_field (f : Xor8) :
    (f.to_bytes.drop 12).take 4 = digitsBE 4 f.block_length := by
  rw [to_bytes_drop12, List.append_assoc]
  rw [List.take_append_of_le_length (by simp [digitsBE_length])]
  simp [digitsBE_length]

theorem to_bytes_fplen_field (f : Xor8) :
    (f.to_bytes.drop 16).take 4 = digitsBE 4 f.finger_prints.length := by
  rw [to_bytes_drop16]
  rw [List.take_append_of_le_length (by simp [digitsBE_length])]
  simp [digitsBE_length]

/-- Decoding an encoded filter succeeds and recovers the three scalar
fields and the fingerprint bytes (given the `u64` / `u32` field bounds the
Rust types guarantee). -/
theorem from_bytes_to_bytes (f : Xor8) (hseed : f.seed < 2 ^ 64)
    (hbl : f.block_length < 2 ^ 32) :
    Xor8.from_bytes f.to_bytes =
      some { keys := none, seed := f.seed, block_length := f.block_length,
             finger_prints := f.finger_prints } := by
  unfold Xor8.from_bytes
  rw [to_bytes_length]
  rw [if_neg (by simp [METADATA_LENGTH])]
  rw [to_bytes_take4]
  rw [if_neg (by simp)]
  rw [to_bytes_fplen_field, to_bytes_drop20, to_bytes_seed_field, to_bytes_bl_field]
  rw [beDec_digitsBE4, beDec_digitsBE8, beDec_digitsBE4]
  rw [if_neg (by have := Nat.mod_le f.finger_prints.length (2 ^ 32); omega)]
  rw [Nat.mod_eq_of_lt hseed, Nat.mod_eq_of_lt hbl]

/-! ## Capacity / block length (`build_keys` sizing) -/

/-- Capacity computed by `build_keys`:
`32 + (1.23 * size).ceil() as u32`, rounded down to a multiple of 3.
Modelling note: the source computes the ceiling with `f64` arithmetic; for
every size below `2^43` the `f64` result equals the exact rational ceiling
`(123 * n + 99) / 100` used here (the accumulated rounding error is below
the distance `1/100` to the nearest integer, and exact multiples round to
themselves). -/
def capacityOf (n : Nat) : Nat :=
  (32 + (123 * n + 99) / 100) / 3 * 3

/-- `block_length` computed by `build_keys`: `capacity / 3`. -/
def blockLengthOf (n : Nat) : Nat :=
  capacityOf n / 3

theorem capacityOf_eq_three_mul (n : Nat) : capacityOf n = 3 * blockLengthOf n := by
  unfold blockLengthOf capacityOf
  omega

theorem blockLengthOf_ge_ten (n : Nat) : 10 ≤ blockLengthOf n := by
  unfold blockLengthOf capacityOf
  omega

/-! ## Claim C4: corrupt-input rejection in `from_bytes` -/

/-- Corrupt buffer: length 10, below the 20-byte header. -/
def corruptShort : List Nat := List.replicate 10 0

/-- Corrupt buffer: header-sized but the first four bytes are `"XXXX"`. -/
def corruptSig : List Nat := [88, 88, 88, 88] ++ List.replicate 16 0

/-- Corrupt buffer: valid signature, total length 24, but the declared
fingerprint length equals the whole buffer length (24 > 4 remaining). -/
def corruptDecl : List Nat :=
  SIGNATURE_V1 ++ List.replicate 8 0 ++ List.replicate 4 0 ++ [0, 0, 0, 24] ++
    List.replicate 4 0

/-- C4: `from_bytes` returns a data-corruption error — modelled as `none`,
and never panics since the embedded function is total — exactly when the
buffer is shorter than 20 bytes, its first four bytes differ from the
signature `['^','T','L',1]`, or the declared big-endian `u32` fingerprint
length at offsets 16..20 exceeds the bytes remaining after offset 20; in
particular a length-10 buffer, a 20-byte buffer starting with `"XXXX"`,
and a buffer declaring `fingerprint_length` equal to its own total length
are all rejected without crashing. -/
theorem from_bytes_error_iff :
    (∀ buf : List Nat,
      Xor8.from_bytes buf = none ↔
        (buf.length < 20 ∨ buf.take 4 ≠ SIGNATURE_V1 ∨
          buf.length - 20 < beDec ((buf.drop 16).take 4))) ∧
    Xor8.from_bytes corruptShort = none ∧
    Xor8.from_bytes corruptSig = none ∧
    Xor8.from_bytes corruptDecl = none := by
  refine ⟨fun buf => ?_, by rfl, by rfl, by rfl⟩
  simp only [Xor8.from_bytes, METADATA_LENGTH]
  have hlen : (buf.drop 20).length = buf.length - 20 := by simp
  split_ifs with h1 h2 h3 <;> simp_all

/-! ## Claim C5: decoded fingerprints are the whole tail of the buffer -/

/-- Buffer with a valid header declaring `fingerprint_length = 0` followed
by one trailing byte `7` beyond offset `20 + fingerprint_length`. -/
def trailingBuf : List Nat :=
  SIGNATURE_V1 ++ List.replicate 8 0 ++ List.replicate 4 0 ++ [0, 0, 0, 0] ++ [7]

/-- The filter that `from_bytes` produces from `trailingBuf`. -/
def trailingFilter : Xor8 :=
  { keys := none, seed := 0, block_length := 0, finger_prints := [7] }

/-- C5 counterexample: on `trailingBuf` (declared fingerprint length 0,
one trailing byte) the decoded `finger_prints` is `[7]`, not the declared
0 bytes at offsets 20..20: the source stores `buf[20..].to_vec()`, every
byte after the header. -/
theorem from_bytes_trailing_cex :
    ¬ ((Xor8.from_bytes trailingBuf).map Xor8.finger_prints =
        some ((trailingBuf.drop 20).take (beDec ((trailingBuf.drop 16).take 4)))) := by
  decide

/-- C5 amended: for every accepted buffer the decoded `finger_prints` is
the entire tail `buf[20..]`; its length is at least the declared
fingerprint length, with equality exactly when the buffer carries no
trailing bytes beyond `20 + fingerprint_length`. -/
theorem from_bytes_fp_tail (buf : List Nat) (f : Xor8)
    (h : Xor8.from_bytes buf = some f) :
    f.finger_prints = buf.drop 20 ∧
    beDec ((buf.drop 16).take 4) ≤ f.finger_prints.length ∧
    (buf.length = 20 + beDec ((buf.drop 16).take 4) →
      f.finger_prints.length = beDec ((buf.drop 16).take 4)) := by
  simp only [Xor8.from_bytes, METADATA_LENGTH] at h
  split_ifs at h with h1 h2 h3
  have hx := Option.some.inj h
  subst hx
  have hlen : (buf.drop 20).length = buf.length - 20 := by simp
  refine ⟨rfl, ?_, ?_⟩ <;> simp only [hlen] at h3 ⊢ <;> omega

/-- C5 witness: the amended statement evaluated on `trailingBuf`. -/
theorem from_bytes_fp_tail_witness :
    trailingFilter.finger_prints = trailingBuf.drop 20 ∧
    beDec ((trailingBuf.drop 16).take 4) ≤ trailingFilter.finger_prints.length ∧
    (trailingBuf.length = 20 + beDec ((trailingBuf.drop 16).take 4) →
      trailingFilter.finger_prints.length = beDec ((trailingBuf.drop 16).take 4)) :=
  from_bytes_fp_tail trailingBuf trailingFilter (by decide)

/-! ## Claim C6: exact wire layout of `to_bytes` -/

/-- Sample built-looking filter used by witnesses. -/
def sampleFilter : Xor8 :=
  { keys := some [], seed := 5, block_length := 2, finger_prints := [1, 2, 3, 4, 5, 6] }

/-- C6: `to_bytes` emits exactly 20 header bytes plus the fingerprints:
bytes 0..4 are the signature `['^','T','L',1]`, bytes 4..12 the seed as a
big-endian u64, bytes 12..16 the block length as a big-endian u32, bytes
16..20 the fingerprint count as a big-endian u32, and bytes 20.. the raw
fingerprint bytes; decoding each field back yields the original values. -/
theorem to_bytes_layout (f : Xor8) (hseed : f.seed < 2 ^ 64)
    (hbl : f.block_length < 2 ^ 32) :
    f.to_bytes.length = 20 + f.finger_prints.length ∧
    f.to_bytes.take 4 = SIGNATURE_V1 ∧
    (f.to_bytes.drop 4).take 8 = digitsBE 8 f.seed ∧
    (f.to_bytes.drop 12).take 4 = digitsBE 4 f.block_length ∧
    (f.to_bytes.drop 16).take 4 = digitsBE 4 f.finger_prints.length ∧
    f.to_bytes.drop 20 = f.finger_prints ∧
    beDec ((f.to_bytes.drop 4).take 8) = f.seed ∧
    beDec ((f.to_bytes.drop 12).take 4) = f.block_length ∧
    beDec ((f.to_bytes.drop 16).take 4) = f.finger_prints.length % 2 ^ 32 :=
  ⟨to_bytes_length f, to_bytes_take4 f, to_bytes_seed_field f, to_bytes_bl_field f,
   to_bytes_fplen_field f, to_bytes_drop20 f,
   by rw [to_bytes_seed_field, beDec_digitsBE8, Nat.mod_eq_of_lt hseed],
   by rw [to_bytes_bl_field, beDec_digitsBE4, Nat.mod_eq_of_lt hbl],
   by rw [to_bytes_fplen_field, beDec_digitsBE4]⟩

/-- C6 witness: the layout statement evaluated on `sampleFilter`. -/
theorem to_bytes_layout_witness :
    sampleFilter.to_bytes.length = 20 + sampleFilter.finger_prints.length ∧
    sampleFilter.to_bytes.take 4 = SIGNATURE_V1 :=
  ⟨(to_bytes_layout sampleFilter (by decide) (by decide)).1,
   (to_bytes_layout sampleFilter (by decide) (by decide)).2.1⟩

/-! ## Claim C2: binary round-trip -/

/-- C2: decoding an encoded filter succeeds, reproduces `seed`,
`block_length` and `finger_prints` byte-for-byte, and the decoded filter
answers `contains_key` identically to the original for every digest. -/
theorem round_trip (f : Xor8) (hseed : f.seed < 2 ^ 64)
    (hbl : f.block_length < 2 ^ 32) :
    (Xor8.from_bytes f.to_bytes).map
        (fun g => (g.seed, g.block_length, g.finger_prints)) =
      some (f.seed, f.block_length, f.finger_prints) ∧
    ∀ key : Nat,
      (Xor8.from_bytes f.to_bytes).map (fun g => g.contains_key key) =
        some (f.contains_key key) := by
  rw [from_bytes_to_bytes f hseed hbl]
  exact ⟨rfl, fun key => rfl⟩

/-- C2 witness: the round trip evaluated on `sampleFilter`. -/
theorem round_trip_witness :
    (Xor8.from_bytes sampleFilter.to_bytes).map
        (fun g => (g.seed, g.block_length, g.finger_prints)) =
      some (sampleFilter.seed, sampleFilter.block_length, sampleFilter.finger_prints) :=
  (round_trip sampleFilter (by decide) (by decide)).1

/-! ## Claim C7: querying a never-built filter -/

/-- C7 counterexample: on a freshly constructed filter (`with_hasher`,
pending keys never consumed, `block_length = 0`, empty `finger_prints`),
`contains_key 0` reaches the fingerprint-array read on the empty array and
aborts (`none` models the Rust index-out-of-bounds panic).  The unbuilt
state is therefore reachable for queries and is neither prevented by the
types nor answered with a recoverable error. -/
theorem contains_key_unbuilt_cex : Xor8.with_hasher.contains_key 0 = none := by
  decide

/-- C7 amended: for every digest, `contains_key` on a never-built filter
attempts to read the empty fingerprint array and panics (modelled `none`);
it never returns a membership answer. -/
theorem contains_key_unbuilt (k : Nat) : Xor8.with_hasher.contains_key k = none := by
  simp [Xor8.contains_key, Xor8.with_hasher]

/-! ## Bounds on `reduce` and the segment index functions -/

theorem reduce_lt (v n : Nat) (hv : v < 2 ^ 32) (hn : 0 < n) : reduce v n < n := by
  have h1 : v * n < 2 ^ 32 * n := (Nat.mul_lt_mul_right hn).mpr hv
  exact Nat.div_lt_of_lt_mul h1

theorem geth0_lt (bl h : Nat) (hbl : 0 < bl) : geth0 bl h < bl :=
  reduce_lt _ bl (Nat.mod_lt _ (by norm_num)) hbl

theorem geth1_lt (bl h : Nat) (hbl : 0 < bl) : geth1 bl h < bl :=
  reduce_lt _ bl (Nat.mod_lt _ (by norm_num)) hbl

theorem geth2_lt (bl h : Nat) (hbl : 0 < bl) : geth2 bl h < bl :=
  reduce_lt _ bl (Nat.mod_lt _ (by norm_num)) hbl

/-! ## Claim C8: `reduce` maps into `[0, n)` -/

/-- C8 counterexample: at `v = 0, n = 0` the claim fails — `reduce 0 0 = 0`
does not lie in the empty interval `[0, 0)`. -/
theorem reduce_zero_cex : ¬ reduce 0 0 < 0 := by
  decide

/-- C8 amended: for every 32-bit `v` and every nonzero `n`,
`reduce v n = v * n / 2^32 < n`; consequently all three segment indices of
any master hash lie in `[0, block_length)` whenever `block_length` is
nonzero, and the `block_length` computed by `build_keys` is always at
least 10, so the unchecked per-segment accesses of the peeling loop stay
in bounds. -/
theorem reduce_in_range (v n : Nat) (hv : v < 2 ^ 32) (hn : 0 < n) :
    reduce v n < n ∧
    (∀ h : Nat, geth0 n h < n ∧ geth1 n h < n ∧ geth2 n h < n) ∧
    (∀ m : Nat, 10 ≤ blockLengthOf m) := by
  exact ⟨reduce_lt v n hv hn,
    fun h => ⟨geth0_lt n h hn, geth1_lt n h hn, geth2_lt n h hn⟩,
    blockLengthOf_ge_ten⟩

/-- C8 witness: the amended statement evaluated at `v = 5`, `n = 10`. -/
theorem reduce_in_range_witness : reduce 5 10 < 10 :=
  (reduce_in_range 5 10 (by decide) (by decide)).1

/-! ## Construction engine (`build_keys`)

The Rust retry loop draws fresh seeds forever until peeling succeeds, and
the inner peeling loop always terminates.  The embedding threads a single
`fuel` bound through both loops; `none` means the computation did not
finish within `fuel`, so every theorem about a successful build is
conditioned on a `= some _` hypothesis, mirroring the claims, which are
themselves conditioned on termination of `build_keys`. -/

/-- `struct XorSet`: running xor of hashes and reference count of one slot. -/
structure XorSet where
  xor_mask : Nat
  count : Nat
deriving DecidableEq

/-- `struct KeyIndex`: a hash together with a slot index (raw while queued,
composite once on the assignment stack). -/
structure KeyIndex where
  hash : Nat
  index : Nat
deriving DecidableEq

/-- Transient peeling state: the three per-segment accumulator arrays
(modelled as total functions that are zero outside `[0, block_length)`,
like the freshly allocated vectors), the three singleton queues and the
assignment stack.  Queues and the stack are kept top-first: push is cons
and pop takes the head, the same LIFO order as `Vec::push` / `Vec::pop`. -/
structure PState where
  sets0 : Nat → XorSet
  sets1 : Nat → XorSet
  sets2 : Nat → XorSet
  q0 : List KeyIndex
  q1 : List KeyIndex
  q2 : List KeyIndex
  stack : List KeyIndex

/-- Result of draining one queue: the two other segments' accumulators and
queues, and the stack. -/
structure DrainOut where
  setsB : Nat → XorSet
  setsC : Nat → XorSet
  qB : List KeyIndex
  qC : List KeyIndex
  stack : List KeyIndex

/-- One inner `while let Some(keyindexvar) = q.pop()` loop of `build_keys`,
generic over the drained segment: `gb` and `gc` are the other two
segments' index functions in the order the source updates them, `off` is
the composite-index offset of the drained segment (0, `block_length` or
`2 * block_length`), and `sets_s` is the drained segment's accumulator
(read only for the staleness check).  A stale entry (count already 0) is
skipped; a live one is pushed on the stack with its composite index, the
two other segments' accumulators are downdated by xor and decrement, and a
slot whose count reaches exactly 1 is enqueued with its current mask. -/
def drainAux (gb gc : Nat → Nat) (off : Nat) (sets_s : Nat → XorSet) :
    List KeyIndex → (Nat → XorSet) → (Nat → XorSet) →
    List KeyIndex → List KeyIndex → List KeyIndex → DrainOut
  | [], sb, sc, qb, qc, stk => ⟨sb, sc, qb, qc, stk⟩
  | ki :: rest, sb, sc, qb, qc, stk =>
    if (sets_s ki.index).count = 0 then
      drainAux gb gc off sets_s rest sb sc qb qc stk
    else
      let hash := ki.hash
      let jb := gb hash
      let jc := gc hash
      let stk1 := (⟨hash, ki.index + off⟩ : KeyIndex) :: stk
      let xb := sb jb
      let xb1 : XorSet := ⟨xb.xor_mask ^^^ hash, xb.count - 1⟩
      let sb1 := Function.update sb jb xb1
      let qb1 := if xb1.count = 1 then (⟨xb1.xor_mask, jb⟩ : KeyIndex) :: qb else qb
      let xc := sc jc
      let xc1 : XorSet := ⟨xc.xor_mask ^^^ hash, xc.count - 1⟩
      let sc1 := Function.update sc jc xc1
      let qc1 := if xc1.count = 1 then (⟨xc1.xor_mask, jc⟩ : KeyIndex) :: qc else qc
      drainAux gb gc off sets_s rest sb1 sc1 qb1 qc1 stk1

/-- The `while let … = q0.pop()` loop: drains queue 0, updating segments 1
then 2 (the source's order) and leaving `sets0` untouched. -/
def drain0 (bl : Nat) (st : PState) : PState :=
  let r := drainAux (geth1 bl) (geth2 bl) 0 st.sets0 st.q0 st.sets1 st.sets2 st.q1 st.q2 st.stack
  { sets0 := st.sets0, sets1 := r.setsB, sets2 := r.setsC,
    q0 := [], q1 := r.qB, q2 := r.qC, stack := r.stack }

/-- The `while let … = q1.pop()` loop: composite offset `block_length`,
updating segments 0 then 2. -/
def drain1 (bl : Nat) (st : PState) : PState :=
  let r := drainAux (geth0 bl) (geth2 bl) bl st.sets1 st.q1 st.sets0 st.sets2 st.q0 st.q2 st.stack
  { sets0 := r.setsB, sets1 := st.sets1, sets2 := r.setsC,
    q0 := r.qB, q1 := [], q2 := r.qC, stack := r.stack }

/-- The `while let … = q2.pop()` loop: composite offset `2 * block_length`,
updating segments 0 then 1. -/
def drain2 (bl : Nat) (st : PState) : PState :=
  let r := drainAux (geth0 bl) (geth1 bl) (2 * bl) st.sets2 st.q2 st.sets0 st.sets1 st.q0 st.q1 st.stack
  { sets0 := r.setsB, sets1 := r.setsC, sets2 := st.sets2,
    q0 := r.qB, q1 := r.qC, q2 := [], stack := r.stack }

/-- The outer `while !q0.is_empty() || !q1.is_empty() || !q2.is_empty()`
peeling loop, fuelled: each iteration drains queue 0, then 1, then 2. -/
def peelLoop (bl : Nat) : Nat → PState → Option PState
  | 0, st =>
    if st.q0.isEmpty && st.q1.isEmpty && st.q2.isEmpty then some st else none
  | fuel + 1, st =>
    if st.q0.isEmpty && st.q1.isEmpty && st.q2.isEmpty then some st
    else peelLoop bl fuel (drain2 bl (drain1 bl (drain0 bl st)))

/-- Accumulator update of the segmentation pass: xor the hash into the
slot's mask and increment its count. -/
def updAdd (sets : Nat → XorSet) (i h : Nat) : Nat → XorSet :=
  Function.update sets i ⟨(sets i).xor_mask ^^^ h, (sets i).count + 1⟩

/-- The segmentation pass of `build_keys`: for every key compute
`geth0h1h2` and accumulate its master hash into the three segments. -/
def segmentSets (seed bl : Nat) (keys : List Nat) :
    (Nat → XorSet) × (Nat → XorSet) × (Nat → XorSet) :=
  keys.foldl
    (fun s k =>
      let h := mixsplit k seed
      (updAdd s.1 (geth0 bl h) h, updAdd s.2.1 (geth1 bl h) h,
       updAdd s.2.2 (geth2 bl h) h))
    (fun _ => ⟨0, 0⟩, fun _ => ⟨0, 0⟩, fun _ => ⟨0, 0⟩)

/-- The initial scan that seeds one queue with every slot of count exactly
one.  The source pushes indices in increasing order, so the pop order is
decreasing: the queue is the reversed ascending list. -/
def scanQ (bl : Nat) (sets : Nat → XorSet) : List KeyIndex :=
  (((List.range bl).filter fun i => (sets i).count == 1).reverse).map
    fun i => (⟨(sets i).xor_mask, i⟩ : KeyIndex)

/-- One seeded attempt of `build_keys`: segmentation pass, initial scan,
peeling; succeeds iff the peeled stack covers every key. -/
def buildAttempt (seed bl fuel : Nat) (keys : List Nat) : Option (List KeyIndex) :=
  let s := segmentSets seed bl keys
  let st : PState :=
    { sets0 := s.1, sets1 := s.2.1, sets2 := s.2.2,
      q0 := scanQ bl s.1, q1 := scanQ bl s.2.1, q2 := scanQ bl s.2.2, stack := [] }
  match peelLoop bl fuel st with
  | none => none
  | some st1 => if st1.stack.length = keys.length then some st1.stack else none

/-- The reseed-and-retry loop of `build_keys`: draw a seed with
`splitmix64` from the running counter (initially 1) and attempt to peel;
on failure retry with the advanced counter. -/
def buildRetry (bl : Nat) (keys : List Nat) : Nat → Nat → Option (Nat × List KeyIndex)
  | 0, _ => none
  | fuel + 1, counter =>
    let p := splitmix64 counter
    match buildAttempt p.2 bl (fuel + 1) keys with
    | some stk => some (p.2, stk)
    | none => buildRetry bl keys fuel p.1

/-- One step of the back-substitution `while let Some(ki) = stack.pop()`:
branch on which segment the composite index belongs to, xor the two other
slots' already-assigned fingerprints into `fingerprint(hash) as u8`, and
store the result at the composite index. -/
def assignStep (bl : Nat) (fp : List Nat) (ki : KeyIndex) : List Nat :=
  let v0 := fingerprint ki.hash % 256
  let val :=
    if ki.index < bl then
      v0 ^^^ fp.getD (geth1 bl ki.hash + bl) 0 ^^^ fp.getD (geth2 bl ki.hash + 2 * bl) 0
    else if ki.index < 2 * bl then
      v0 ^^^ fp.getD (geth0 bl ki.hash) 0 ^^^ fp.getD (geth2 bl ki.hash + 2 * bl) 0
    else
      v0 ^^^ fp.getD (geth0 bl ki.hash) 0 ^^^ fp.getD (geth1 bl ki.hash + bl) 0
  fp.set ki.index val

/-- The full back-substitution pass: pop the stack (head first, the LIFO
order of the source) and assign each composite slot. -/
def assignAll (bl : Nat) (stack : List KeyIndex) (fp : List Nat) : List Nat :=
  stack.foldl (assignStep bl) fp

/-- `Xor8::build_keys`: compute the capacity and block length, run the
fuelled retry loop from counter 1, then back-substitute fingerprints into
a zeroed array of `capacity` bytes.  The pending `keys` field of the
receiver is not touched, exactly as in the source. -/
def Xor8.build_keys (fuel : Nat) (f : Xor8) (keys : List Nat) : Option Xor8 :=
  let capacity := capacityOf keys.length
  let bl := capacity / 3
  match buildRetry bl keys fuel 1 with
  | none => none
  | some (seed, stk) =>
    some { f with
             seed := seed,
             block_length := bl,
             finger_prints := assignAll bl stk (List.replicate capacity 0) }

/-- `Xor8::build`: `self.keys.take().unwrap()` (panic, modelled `none`,
when `keys` is already `None`), then `build_keys` on the taken list with
the pending-keys field now `None`. -/
def Xor8.build (fuel : Nat) (f : Xor8) : Option Xor8 :=
  match f.keys with
  | none => none
  | some ks => Xor8.build_keys fuel { f with keys := none } ks

/-- `Xor8::populate` (after the external hasher has produced the digests):
extends the pending list; `none` models the panic of the `unwrap` on a
consumed `keys` field. -/
def Xor8.populate (f : Xor8) (digests : List Nat) : Option Xor8 :=
  match f.keys with
  | none => none
  | some ks => some { f with keys := some (ks ++ digests) }

/-! ## Basic lemmas about `build_keys` -/

theorem assignStep_length (bl : Nat) (fp : List Nat) (ki : KeyIndex) :
    (assignStep bl fp ki).length = fp.length := by
  simp [assignStep]

theorem assignAll_length (bl : Nat) (stack : List KeyIndex) :
    ∀ fp : List Nat, (assignAll bl stack fp).length = fp.length := by
  induction stack with
  | nil => intro fp; rfl
  | cons ki rest ih =>
    intro fp
    have h1 : assignAll bl (ki :: rest) fp = assignAll bl rest (assignStep bl fp ki) := rfl
    rw [h1, ih, assignStep_length]

/-- Shape of a successful `build_keys`: the returned filter is the input
record with the drawn seed, the computed block length and the
back-substituted fingerprint array. -/
theorem build_keys_some (fuel : Nat) (f g : Xor8) (keys : List Nat)
    (h : Xor8.build_keys fuel f keys = some g) :
    ∃ seed stk,
      buildRetry (capacityOf keys.length / 3) keys fuel 1 = some (seed, stk) ∧
      g = { f with
              seed := seed,
              block_length := capacityOf keys.length / 3,
              finger_prints :=
                assignAll (capacityOf keys.length / 3) stk
                  (List.replicate (capacityOf keys.length) 0) } := by
  simp only [Xor8.build_keys] at h
  split at h
  · exact Option.noConfusion h
  · next seed stk heq => exact ⟨seed, stk, heq, (Option.some.inj h).symm⟩

/-! ## Claim C3: sizing invariant -/

/-- A 20-byte buffer accepted by `from_bytes` that declares
`block_length = 1` with zero fingerprint bytes. -/
def badSizeBuf : List Nat :=
  SIGNATURE_V1 ++ List.replicate 8 0 ++ [0, 0, 0, 1] ++ [0, 0, 0, 0]

/-- C3 counterexample: a successful `from_bytes` decode can violate the
sizing invariant — `from_bytes` performs no validation tying
`finger_prints.len()` to `3 * block_length`, so the claim's "including one
produced by a successful from_bytes decode" is false. -/
theorem from_bytes_sizing_cex :
    (Xor8.from_bytes badSizeBuf).map
        (fun g => decide (g.finger_prints.length = 3 * g.block_length ∧
          0 < g.block_length)) = some false := by
  decide

/-- C3 amended: every filter produced by `build_keys` on `n` keys satisfies
`finger_prints.len() = 3 * block_length` with nonzero `block_length`, and
`block_length = ((32 + ceil(1.23 n)) / 3 * 3) / 3` (the exact rational
ceiling, which agrees with the source's `f64` computation for every
realistic `n`); `from_bytes` does not validate this invariant and a
decoded filter need not satisfy it. -/
theorem build_keys_sizing (fuel : Nat) (f g : Xor8) (keys : List Nat)
    (h : Xor8.build_keys fuel f keys = some g) :
    g.finger_prints.length = 3 * g.block_length ∧
    0 < g.block_length ∧
    g.block_length = (32 + (123 * keys.length + 99) / 100) / 3 * 3 / 3 := by
  obtain ⟨seed, stk, -, rfl⟩ := build_keys_some fuel f g keys h
  refine ⟨?_, ?_, rfl⟩
  · show (assignAll _ _ _).length = _
    rw [assignAll_length, List.length_replicate]
    exact capacityOf_eq_three_mul keys.length
  · have h10 := blockLengthOf_ge_ten keys.length
    unfold blockLengthOf at h10
    show 0 < capacityOf keys.length / 3
    omega

/-- The filter built from the empty key list (capacity 30, block length
10, all-zero fingerprints, first drawn seed). -/
def emptyBuilt : Xor8 :=
  { keys := some [], seed := (splitmix64 1).2, block_length := 10,
    finger_prints := List.replicate 30 0 }

/-- C3 witness: the sizing invariant on the concrete empty-key build. -/
theorem build_keys_sizing_witness :
    emptyBuilt.finger_prints.length = 3 * emptyBuilt.block_length ∧
    0 < emptyBuilt.block_length ∧
    emptyBuilt.block_length = (32 + (123 * ([] : List Nat).length + 99) / 100) / 3 * 3 / 3 :=
  build_keys_sizing 1 Xor8.with_hasher emptyBuilt [] (by decide)

/-! ## Claim C9: deterministic seed sequence -/

/-- The internal `rngcounter` after `i` draws of `splitmix64`, starting
from 1 as in `build_keys`. -/
def smxCounter : Nat → Nat
  | 0 => 1
  | i + 1 => (smxCounter i + 0x9E3779B97F4A7C15) % 2 ^ 64

/-- The fixed, key-independent sequence of construction seeds: the seed
used by attempt `i` (0-based) of `build_keys` on any input. -/
def seedSeq (i : Nat) : Nat := (splitmix64 (smxCounter i)).2

theorem smxCounter_succ (i : Nat) :
    smxCounter (i + 1) = (splitmix64 (smxCounter i)).1 := rfl

theorem buildRetry_seedSeq (bl : Nat) (keys : List Nat) :
    ∀ fuel i seed stk,
      buildRetry bl keys fuel (smxCounter i) = some (seed, stk) →
      ∃ j, i ≤ j ∧ j < i + fuel ∧ seed = seedSeq j := by
  intro fuel
  induction fuel with
  | zero => intro i seed stk h; exact Option.noConfusion h
  | succ f ih =>
    intro i seed stk h
    simp only [buildRetry] at h
    split at h
    · next stk0 heq =>
      have hx := Option.some.inj h
      rw [Prod.mk.injEq] at hx
      exact ⟨i, Nat.le_refl i, by omega, hx.1.symm⟩
    · rw [← smxCounter_succ] at h
      obtain ⟨j, hj1, hj2, hj3⟩ := ih (i + 1) seed stk h
      exact ⟨j, by omega, by omega, hj3⟩

/-- C9: `build_keys` is deterministic.  The construction seed of a
successful build is an element of the fixed splitmix64 sequence drawn from
the internal counter starting at 1 (the same retry-seed sequence on every
run, independent of the keys), and a second invocation on the same digest
slice — whatever the receiver's prior field values — succeeds with
identical `seed`, `block_length` and `finger_prints`. -/
theorem build_keys_deterministic (fuel : Nat) (f f2 g : Xor8) (keys : List Nat)
    (h : Xor8.build_keys fuel f keys = some g) :
    (∃ i, i < fuel ∧ g.seed = seedSeq i) ∧
    (∃ g2, Xor8.build_keys fuel f2 keys = some g2 ∧
      g2.seed = g.seed ∧ g2.block_length = g.block_length ∧
      g2.finger_prints = g.finger_prints) := by
  obtain ⟨seed, stk, hr, rfl⟩ := build_keys_some fuel f g keys h
  constructor
  · have h0 : (1 : Nat) = smxCounter 0 := rfl
    rw [h0] at hr
    obtain ⟨j, hj1, hj2, hj3⟩ := buildRetry_seedSeq _ keys fuel 0 seed stk hr
    exact ⟨j, by omega, hj3⟩
  · refine ⟨{ f2 with
                seed := seed,
                block_length := capacityOf keys.length / 3,
                finger_prints :=
                  assignAll (capacityOf keys.length / 3) stk
                    (List.replicate (capacityOf keys.length) 0) }, ?_, rfl, rfl, rfl⟩
    simp only [Xor8.build_keys]
    rw [hr]

/-- C9 witness: the empty-key build uses the first seed of the fixed
sequence. -/
theorem build_keys_deterministic_witness : emptyBuilt.seed = seedSeq 0 := by
  have h := build_keys_deterministic 1 Xor8.with_hasher sampleFilter emptyBuilt [] (by decide)
  obtain ⟨⟨i, hi, hseed⟩, -⟩ := h
  have hz : i = 0 := by omega
  subst hz
  exact hseed

/-! ## Claim C10: consumed pending keys -/

theorem build_keys_keys_field (fuel : Nat) (f g : Xor8) (keys : List Nat)
    (h : Xor8.build_keys fuel f keys = some g) : g.keys = f.keys := by
  obtain ⟨seed, stk, -, rfl⟩ := build_keys_some fuel f g keys h
  rfl

theorem from_bytes_keys_none (buf : List Nat) (f : Xor8)
    (h : Xor8.from_bytes buf = some f) : f.keys = none := by
  simp only [Xor8.from_bytes, METADATA_LENGTH] at h
  split_ifs at h
  have hx := Option.some.inj h
  subst hx
  rfl

/-- C10: after a successful `build` (which consumes the pending keys with
`take()`) and after a successful `from_bytes` decode, the pending-keys
field is `None`, and every subsequent `insert`, `populate`,
`populate_keys` or `build` on that value panics on the `Option` unwrap
(modelled `none`) instead of returning an error or accepting keys. -/
theorem built_filters_reject_mutation (fuel fuel2 : Nat) (f g h : Xor8)
    (buf : List Nat) (hb : Xor8.build fuel f = some g)
    (hd : Xor8.from_bytes buf = some h) :
    g.keys = none ∧ h.keys = none ∧
    (∀ d, g.insert d = none) ∧ (∀ ds, g.populate ds = none) ∧
    (∀ ds, g.populate_keys ds = none) ∧ Xor8.build fuel2 g = none ∧
    (∀ d, h.insert d = none) ∧ (∀ ds, h.populate ds = none) ∧
    (∀ ds, h.populate_keys ds = none) ∧ Xor8.build fuel2 h = none := by
  have hgk : g.keys = none := by
    simp only [Xor8.build] at hb
    split at hb
    · exact Option.noConfusion hb
    · next ks heq => rw [build_keys_keys_field fuel _ g _ hb]
  have hhk : h.keys = none := from_bytes_keys_none buf h hd
  exact ⟨hgk, hhk,
    fun d => by simp [Xor8.insert, hgk],
    fun ds => by simp [Xor8.populate, hgk],
    fun ds => by simp [Xor8.populate_keys, hgk],
    by simp [Xor8.build, hgk],
    fun d => by simp [Xor8.insert, hhk],
    fun ds => by simp [Xor8.populate, hhk],
    fun ds => by simp [Xor8.populate_keys, hhk],
    by simp [Xor8.build, hhk]⟩

/-- The filter produced by `Xor8::build` on a fresh filter (pending keys
consumed, so `keys = None`). -/
def emptyBuiltN : Xor8 :=
  { keys := none, seed := (splitmix64 1).2, block_length := 10,
    finger_prints := List.replicate 30 0 }

/-- C10 witness: concrete built and decoded filters reject all mutation. -/
theorem built_filters_reject_mutation_witness :
    emptyBuiltN.keys = none ∧ emptyBuiltN.insert 5 = none ∧
    emptyBuiltN.populate_keys [1, 2] = none ∧ Xor8.build 1 emptyBuiltN = none ∧
    trailingFilter.keys = none ∧ trailingFilter.insert 7 = none := by
  have h := built_filters_reject_mutation 1 1 Xor8.with_hasher emptyBuiltN
    trailingFilter trailingBuf (by decide) (by decide)
  exact ⟨h.1, h.2.2.1 5, h.2.2.2.2.1 [1, 2], h.2.2.2.2.2.1, h.2.1, h.2.2.2.2.2.2.1 7⟩

/-! ## Ghost state for the peeling proof (claim C1)

The peeling proof tracks a ghost multiset `L` of hashes that are still
live (not yet peeled), represented as a list.  For each segment function
`g`, `cntS g L i` counts the live hashes mapping to slot `i` and
`mskS g L i` is their xor — the values the accumulator arrays hold at
unpeeled slots. -/

/-- Number of live hashes mapping to slot `i` under segment function `g`. -/
def cntS (g : Nat → Nat) (L : List Nat) (i : Nat) : Nat :=
  (L.filter fun h => g h == i).length

/-- xor of all elements of a list. -/
def xorSum (L : List Nat) : Nat := L.foldr (fun a b => a ^^^ b) 0

/-- xor of the live hashes mapping to slot `i` under `g`. -/
def mskS (g : Nat → Nat) (L : List Nat) (i : Nat) : Nat :=
  xorSum (L.filter fun h => g h == i)

theorem xorSum_nil : xorSum [] = 0 := rfl

theorem xorSum_cons (a : Nat) (L : List Nat) : xorSum (a :: L) = a ^^^ xorSum L := rfl

theorem xorSum_perm {L1 L2 : List Nat} (h : L1.Perm L2) : xorSum L1 = xorSum L2 := by
  induction h with
  | nil => rfl
  | cons a _ ih => simp [xorSum_cons, ih]
  | swap a b l =>
    simp only [xorSum_cons]
    rw [← Nat.xor_assoc, Nat.xor_comm b a, Nat.xor_assoc]
  | trans _ _ ih1 ih2 => rw [ih1, ih2]

theorem cntS_perm {L1 L2 : List Nat} (g : Nat → Nat) (i : Nat) (h : L1.Perm L2) :
    cntS g L1 i = cntS g L2 i :=
  (h.filter _).length_eq

theorem mskS_perm {L1 L2 : List Nat} (g : Nat → Nat) (i : Nat) (h : L1.Perm L2) :
    mskS g L1 i = mskS g L2 i :=
  xorSum_perm (h.filter _)

theorem cntS_cons (g : Nat → Nat) (a : Nat) (L : List Nat) (i : Nat) :
    cntS g (a :: L) i = (if g a = i then 1 else 0) + cntS g L i := by
  unfold cntS
  by_cases h : g a = i
  · rw [if_pos h, List.filter_cons_of_pos (by simpa using h)]
    simp [Nat.add_comm]
  · rw [if_neg h, List.filter_cons_of_neg (by simpa using h)]
    simp

theorem mskS_cons (g : Nat → Nat) (a : Nat) (L : List Nat) (i : Nat) :
    mskS g (a :: L) i = (if g a = i then a else 0) ^^^ mskS g L i := by
  unfold mskS
  by_cases h : g a = i
  · rw [if_pos h, List.filter_cons_of_pos (by simpa using h), xorSum_cons]
  · rw [if_neg h, List.filter_cons_of_neg (by simpa using h), Nat.zero_xor]

theorem cntS_erase_of_mem {g : Nat → Nat} {L : List Nat} {a i : Nat}
    (ha : a ∈ L) (hg : g a = i) : cntS g L i = cntS g (L.erase a) i + 1 := by
  have hperm := List.perm_cons_erase ha
  rw [cntS_perm g i hperm, cntS_cons, if_pos hg]
  omega

theorem cntS_erase_of_ne {g : Nat → Nat} {L : List Nat} {a i : Nat}
    (hg : g a ≠ i) : cntS g (L.erase a) i = cntS g L i := by
  by_cases ha : a ∈ L
  · have hperm := List.perm_cons_erase ha
    rw [cntS_perm g i hperm, cntS_cons, if_neg hg]
    omega
  · rw [List.erase_of_not_mem ha]

theorem mskS_erase_of_mem {g : Nat → Nat} {L : List Nat} {a i : Nat}
    (ha : a ∈ L) (hg : g a = i) : mskS g (L.erase a) i = mskS g L i ^^^ a := by
  have hperm := List.perm_cons_erase ha
  rw [mskS_perm g i hperm, mskS_cons, if_pos hg]
  rw [Nat.xor_comm a (mskS g (L.erase a) i), Nat.xor_assoc, Nat.xor_self, Nat.xor_zero]

theorem mskS_erase_of_ne {g : Nat → Nat} {L : List Nat} {a i : Nat}
    (hg : g a ≠ i) : mskS g (L.erase a) i = mskS g L i := by
  by_cases ha : a ∈ L
  · have hperm := List.perm_cons_erase ha
    rw [mskS_perm g i hperm, mskS_cons, if_neg hg, Nat.zero_xor]
  · rw [List.erase_of_not_mem ha]

theorem cntS_erase_le (g : Nat → Nat) (L : List Nat) (a i : Nat) :
    cntS g (L.erase a) i ≤ cntS g L i := by
  by_cases hg : g a = i
  · by_cases ha : a ∈ L
    · rw [cntS_erase_of_mem ha hg]; omega
    · rw [List.erase_of_not_mem ha]
  · rw [cntS_erase_of_ne hg]

theorem cntS_pos_of_mem {g : Nat → Nat} {L : List Nat} {a i : Nat}
    (ha : a ∈ L) (hg : g a = i) : 0 < cntS g L i := by
  rw [cntS_erase_of_mem ha hg]
  omega

/-- When exactly one live hash maps to slot `i`, the mask is that hash:
it is live and maps to `i`. -/
theorem cntS_one_unique {g : Nat → Nat} {L : List Nat} {i : Nat}
    (h : cntS g L i = 1) : mskS g L i ∈ L ∧ g (mskS g L i) = i := by
  unfold cntS at h
  obtain ⟨a, ha⟩ := List.length_eq_one.mp h
  have hmem : a ∈ L.filter fun h => g h == i := by rw [ha]; exact List.mem_singleton_self a
  have hmem2 := List.mem_filter.mp hmem
  have hmsk : mskS g L i = a := by
    unfold mskS
    rw [ha, xorSum_cons, xorSum_nil, Nat.xor_zero]
  rw [hmsk]
  exact ⟨hmem2.1, by simpa using hmem2.2⟩

theorem two_le_cntS_of_two_mem {g : Nat → Nat} {L : List Nat} {a b i : Nat}
    (ha : a ∈ L) (hb : b ∈ L) (hne : a ≠ b) (hga : g a = i) (hgb : g b = i) :
    2 ≤ cntS g L i := by
  have hb2 : b ∈ L.erase a := (List.mem_erase_of_ne (Ne.symm hne)).mpr hb
  have h1 : 0 < cntS g (L.erase a) i := cntS_pos_of_mem hb2 hgb
  rw [cntS_erase_of_mem ha hga]
  omega

theorem two_le_cntS_of_dup {g : Nat → Nat} {L : List Nat} {a i : Nat}
    (ha : a ∈ L.erase a) (hg : g a = i) : 2 ≤ cntS g L i := by
  have haL : a ∈ L := List.mem_of_mem_erase ha
  have h1 : 0 < cntS g (L.erase a) i := cntS_pos_of_mem ha hg
  rw [cntS_erase_of_mem haL hg]
  omega

/-! ## Composite indices and peeled slots -/

/-- The segment index function of segment `s` (0, 1 or 2). -/
def gseg (bl s : Nat) : Nat → Nat :=
  if s = 0 then geth0 bl else if s = 1 then geth1 bl else geth2 bl

/-- Segment index function selected by a composite index (which third of
the flat fingerprint array the index falls into). -/
def slotFun (bl idx : Nat) : Nat → Nat :=
  if idx < bl then geth0 bl else if idx < 2 * bl then geth1 bl else geth2 bl

/-- Raw (in-segment) index of a composite index. -/
def rawOf (bl idx : Nat) : Nat :=
  if idx < bl then idx else if idx < 2 * bl then idx - bl else idx - 2 * bl

theorem gseg_zero (bl : Nat) : gseg bl 0 = geth0 bl := rfl

theorem gseg_one (bl : Nat) : gseg bl 1 = geth1 bl := rfl

theorem gseg_two (bl : Nat) : gseg bl 2 = geth2 bl := rfl

theorem gseg_lt (bl s h : Nat) (hbl : 0 < bl) : gseg bl s h < bl := by
  unfold gseg
  split_ifs
  · exact geth0_lt bl h hbl
  · exact geth1_lt bl h hbl
  · exact geth2_lt bl h hbl

/-- Unique decomposition of a composite index into segment and raw index. -/
theorem comp_decomp {bl s i s2 i2 : Nat} (hbl : 0 < bl) (hi : i < bl) (hi2 : i2 < bl)
    (h : s * bl + i = s2 * bl + i2) : s = s2 ∧ i = i2 := by
  have hdiv : ∀ a b : Nat, b < bl → (a * bl + b) / bl = a := by
    intro a b hblt
    rw [Nat.add_comm, Nat.add_mul_div_right b a hbl, Nat.div_eq_of_lt hblt]
    omega
  have hmod : ∀ a b : Nat, b < bl → (a * bl + b) % bl = b := by
    intro a b hblt
    rw [Nat.add_comm, Nat.add_mul_mod_self_right, Nat.mod_eq_of_lt hblt]
  constructor
  · have := congrArg (· / bl) h
    simpa [hdiv s i hi, hdiv s2 i2 hi2] using this
  · have := congrArg (· % bl) h
    simpa [hmod s i hi, hmod s2 i2 hi2] using this

theorem slotFun_comp {bl s i : Nat} (hbl : 0 < bl) (hs : s < 3) (hi : i < bl) :
    slotFun bl (s * bl + i) = gseg bl s ∧ rawOf bl (s * bl + i) = i := by
  have hs3 : s = 0 ∨ s = 1 ∨ s = 2 := by omega
  unfold slotFun rawOf gseg
  rcases hs3 with rfl | rfl | rfl
  · have h1 : 0 * bl + i < bl := by omega
    rw [if_pos h1, if_pos h1]
    exact ⟨rfl, by omega⟩
  · have h1 : ¬ (1 * bl + i < bl) := by omega
    have h2 : 1 * bl + i < 2 * bl := by omega
    rw [if_neg h1, if_pos h2, if_neg h1, if_pos h2]
    exact ⟨rfl, by omega⟩
  · have h1 : ¬ (2 * bl + i < bl) := by omega
    have h2 : ¬ (2 * bl + i < 2 * bl) := by omega
    rw [if_neg h1, if_neg h2, if_neg h1, if_neg h2]
    exact ⟨rfl, by omega⟩

/-- Slot `(s, i)` has been peeled: some stack entry carries the composite
index `s * bl + i`. -/
def Peeled (bl : Nat) (stk : List KeyIndex) (s i : Nat) : Prop :=
  i < bl ∧ ∃ e ∈ stk, e.index = s * bl + i

theorem Peeled_nil (bl s i : Nat) : ¬ Peeled bl [] s i := by
  rintro ⟨-, e, he, -⟩
  exact absurd he (List.not_mem_nil e)

theorem Peeled_cons_iff {bl : Nat} (hbl : 0 < bl) (stk : List KeyIndex)
    (hash sa i : Nat) (hi : i < bl) (s r : Nat) :
    Peeled bl ((⟨hash, i + sa * bl⟩ : KeyIndex) :: stk) s r ↔
      Peeled bl stk s r ∨ (s = sa ∧ r = i) := by
  constructor
  · rintro ⟨hr, e, he, hidx⟩
    rcases List.mem_cons.mp he with rfl | hmem
    · right
      have hx : sa * bl + i = s * bl + r := by
        simpa [Nat.add_comm] using hidx
      obtain ⟨h1, h2⟩ := comp_decomp hbl hi hr hx
      exact ⟨h1.symm, h2.symm⟩
    · exact Or.inl ⟨hr, e, hmem, hidx⟩
  · rintro (⟨hr, e, hmem, hidx⟩ | ⟨rfl, rfl⟩)
    · exact ⟨hr, e, List.mem_cons_of_mem _ hmem, hidx⟩
    · exact ⟨hi, ⟨hash, r + s * bl⟩, List.mem_cons_self _ _, by simp [Nat.add_comm]⟩

/-! ## Peeling history (`Trace`) -/

/-- A stack entry is valid for live multiset `L`: its composite index is
in range, its hash maps to the entry's slot in the entry's segment, the
hash is live, and the slot is a singleton (exactly one live hash maps
there). -/
def entryOk (bl : Nat) (L : List Nat) (e : KeyIndex) : Prop :=
  e.index < 3 * bl ∧
  slotFun bl e.index e.hash = rawOf bl e.index ∧
  e.hash ∈ L ∧
  cntS (slotFun bl e.index) L (rawOf bl e.index) = 1

/-- `Trace bl L po L2`: the entries of `po` (in push order) form a valid
peeling history from live multiset `L` down to `L2`: each entry is a
singleton slot of the current multiset and peels its hash. -/
def Trace (bl : Nat) : List Nat → List KeyIndex → List Nat → Prop
  | L, [], L2 => L2 = L
  | L, e :: po, L2 => entryOk bl L e ∧ Trace bl (L.erase e.hash) po L2

theorem Trace_snoc (bl : Nat) :
    ∀ (po : List KeyIndex) (L L1 : List Nat) (e : KeyIndex),
      Trace bl L po L1 → entryOk bl L1 e →
      Trace bl L (po ++ [e]) (L1.erase e.hash) := by
  intro po
  induction po with
  | nil =>
    intro L L1 e h he
    have hL : L1 = L := h
    subst hL
    exact ⟨he, rfl⟩
  | cons e0 po ih =>
    intro L L1 e h he
    exact ⟨h.1, ih _ _ e h.2 he⟩

theorem Trace_length (bl : Nat) :
    ∀ (po : List KeyIndex) (L L2 : List Nat),
      Trace bl L po L2 → L.length = po.length + L2.length := by
  intro po
  induction po with
  | nil =>
    intro L L2 h
    have hL : L2 = L := h
    subst hL
    simp
  | cons e po ih =>
    intro L L2 h
    have hmem : e.hash ∈ L := h.1.2.2.1
    have h1 := ih (L.erase e.hash) L2 h.2
    have h2 : (L.erase e.hash).length = L.length - 1 := List.length_erase_of_mem hmem
    have h3 : 0 < L.length := List.length_pos.mpr (by rintro rfl; exact absurd hmem (List.not_mem_nil _))
    simp only [List.length_cons]
    omega

/-! ## Back-substitution correctness -/

theorem xor_left_comm (a b c : Nat) : a ^^^ (b ^^^ c) = b ^^^ (a ^^^ c) := by
  rw [← Nat.xor_assoc, Nat.xor_comm a b, Nat.xor_assoc]

theorem xor_shuffle0 (f a b : Nat) : (f ^^^ a ^^^ b) ^^^ a ^^^ b = f := by
  simp [Nat.xor_assoc, Nat.xor_comm, xor_left_comm]

theorem xor_shuffle1 (f a b : Nat) : a ^^^ (f ^^^ a ^^^ b) ^^^ b = f := by
  simp [Nat.xor_assoc, Nat.xor_comm, xor_left_comm]

theorem xor_shuffle2 (f a b : Nat) : a ^^^ b ^^^ (f ^^^ a ^^^ b) = f := by
  simp [Nat.xor_assoc, Nat.xor_comm, xor_left_comm]

theorem getD_set_self (l : List Nat) (i v : Nat) (h : i < l.length) :
    (l.set i v).getD i 0 = v := by
  rw [List.getD_eq_getElem?_getD, List.getElem?_set_self]
  · rfl
  · exact h

theorem getD_set_ne (l : List Nat) (v : Nat) {i j : Nat} (h : i ≠ j) :
    (l.set i v).getD j 0 = l.getD j 0 := by
  rw [List.getD_eq_getElem?_getD, List.getElem?_set_ne h, List.getD_eq_getElem?_getD]

theorem getElem?_eq_some_getD (l : List Nat) (i : Nat) (h : i < l.length) :
    l[i]? = some (l.getD i 0) := by
  rw [List.getElem?_eq_getElem h, List.getD_eq_getElem?_getD, List.getElem?_eq_getElem h]
  rfl

theorem slotFun_case0 {bl idx : Nat} (h : idx < bl) :
    slotFun bl idx = geth0 bl ∧ rawOf bl idx = idx := by
  unfold slotFun rawOf
  rw [if_pos h, if_pos h]
  exact ⟨rfl, rfl⟩

theorem slotFun_case1 {bl idx : Nat} (h0 : ¬ idx < bl) (h1 : idx < 2 * bl) :
    slotFun bl idx = geth1 bl ∧ rawOf bl idx = idx - bl := by
  unfold slotFun rawOf
  rw [if_neg h0, if_pos h1, if_neg h0, if_pos h1]
  exact ⟨rfl, rfl⟩

theorem slotFun_case2 {bl idx : Nat} (h0 : ¬ idx < bl) (h1 : ¬ idx < 2 * bl) :
    slotFun bl idx = geth2 bl ∧ rawOf bl idx = idx - 2 * bl := by
  unfold slotFun rawOf
  rw [if_neg h0, if_neg h1, if_neg h0, if_neg h1]
  exact ⟨rfl, rfl⟩

theorem assignStep_case0 (bl : Nat) (fp : List Nat) (e : KeyIndex) (h0 : e.index < bl) :
    assignStep bl fp e =
      fp.set e.index (fingerprint e.hash % 256 ^^^ fp.getD (geth1 bl e.hash + bl) 0 ^^^
        fp.getD (geth2 bl e.hash + 2 * bl) 0) := by
  simp only [assignStep]
  rw [if_pos h0]

theorem assignStep_case1 (bl : Nat) (fp : List Nat) (e : KeyIndex)
    (h0 : ¬ e.index < bl) (h1 : e.index < 2 * bl) :
    assignStep bl fp e =
      fp.set e.index (fingerprint e.hash % 256 ^^^ fp.getD (geth0 bl e.hash) 0 ^^^
        fp.getD (geth2 bl e.hash + 2 * bl) 0) := by
  simp only [assignStep]
  rw [if_neg h0, if_pos h1]

theorem assignStep_case2 (bl : Nat) (fp : List Nat) (e : KeyIndex)
    (h0 : ¬ e.index < bl) (h1 : ¬ e.index < 2 * bl) :
    assignStep bl fp e =
      fp.set e.index (fingerprint e.hash % 256 ^^^ fp.getD (geth0 bl e.hash) 0 ^^^
        fp.getD (geth1 bl e.hash + bl) 0) := by
  simp only [assignStep]
  rw [if_neg h0, if_neg h1]

/-- The three-way fingerprint xor that membership of a master hash
compares against `fingerprint(h) as u8`. -/
def queryXor (bl : Nat) (fp : List Nat) (h : Nat) : Nat :=
  fp.getD (geth0 bl h) 0 ^^^ fp.getD (geth1 bl h + bl) 0 ^^^
    fp.getD (geth2 bl h + 2 * bl) 0

/-- Back-substitution in push order (the reverse of the pop order that
`assignAll` uses): the earliest-pushed entry is assigned last. -/
def assignPO (bl : Nat) (po : List KeyIndex) (fp : List Nat) : List Nat :=
  po.foldr (fun e acc => assignStep bl acc e) fp

theorem assignAll_eq_assignPO (bl : Nat) (stk : List KeyIndex) (fp : List Nat) :
    assignAll bl stk fp = assignPO bl stk.reverse fp := by
  unfold assignAll assignPO
  conv_lhs => rw [← List.reverse_reverse stk]
  rw [List.foldl_reverse]

theorem assignPO_length (bl : Nat) (po : List KeyIndex) (fp : List Nat) :
    (assignPO bl po fp).length = fp.length := by
  induction po with
  | nil => rfl
  | cons e po ih =>
    show (assignStep bl (assignPO bl po fp) e).length = fp.length
    rw [assignStep_length, ih]

/-- Core correctness of the back-substitution: for any complete peeling
history (in push order) of the live multiset `L`, the assigned fingerprint
array satisfies the three-way xor identity for every hash of `L`.  The
peeling singleton property guarantees that when an entry is assigned (in
pop order), no later assignment touches any of its three slots. -/
theorem assignPO_identity (bl : Nat) (hbl : 0 < bl) :
    ∀ (po : List KeyIndex) (L fp : List Nat),
      fp.length = 3 * bl → Trace bl L po [] →
      ∀ h, h ∈ L → queryXor bl (assignPO bl po fp) h = fingerprint h % 256 := by
  intro po
  induction po with
  | nil =>
    intro L fp hlen ht h hmem
    have hL : ([] : List Nat) = L := ht
    rw [← hL] at hmem
    exact absurd hmem (List.not_mem_nil h)
  | cons e po ih =>
    intro L fp hlen ht h hmem
    obtain ⟨⟨he1, he2, he3, he4⟩, ht2⟩ := ht
    set fpP := assignPO bl po fp with hfpP
    have hlenP : fpP.length = 3 * bl := by rw [hfpP, assignPO_length]; exact hlen
    have hstep : assignPO bl (e :: po) fp = assignStep bl fpP e := rfl
    rw [hstep]
    by_cases hb0 : e.index < bl
    · -- the entry peels a segment-0 slot
      obtain ⟨hsf, hro⟩ := slotFun_case0 hb0
      rw [hsf, hro] at he2 he4
      rw [assignStep_case0 bl fpP e hb0]
      by_cases hh : h = e.hash
      · subst hh
        unfold queryXor
        have hne1 : e.index ≠ geth1 bl e.hash + bl := by omega
        have hne2 : e.index ≠ geth2 bl e.hash + 2 * bl := by omega
        rw [he2]
        rw [getD_set_self _ _ _ (by omega)]
        rw [getD_set_ne _ _ hne1, getD_set_ne _ _ hne2]
        exact xor_shuffle0 _ _ _
      · have hmem2 : h ∈ L.erase e.hash := (List.mem_erase_of_ne hh).mpr hmem
        have hih := ih (L.erase e.hash) fp hlen ht2 h hmem2
        unfold queryXor at hih ⊢
        have hg0 : geth0 bl h < bl := geth0_lt bl h hbl
        have hne0 : e.index ≠ geth0 bl h := by
          intro heq
          have h2 : 2 ≤ cntS (geth0 bl) L e.index :=
            two_le_cntS_of_two_mem he3 hmem (fun hc => hh hc.symm) he2 heq.symm
          omega
        have hne1 : e.index ≠ geth1 bl h + bl := by omega
        have hne2 : e.index ≠ geth2 bl h + 2 * bl := by omega
        rw [getD_set_ne _ _ hne0, getD_set_ne _ _ hne1, getD_set_ne _ _ hne2]
        exact hih
    · by_cases hb1 : e.index < 2 * bl
      · -- the entry peels a segment-1 slot
        obtain ⟨hsf, hro⟩ := slotFun_case1 hb0 hb1
        rw [hsf, hro] at he2 he4
        have heq : geth1 bl e.hash + bl = e.index := by omega
        rw [assignStep_case1 bl fpP e hb0 hb1]
        by_cases hh : h = e.hash
        · subst hh
          unfold queryXor
          have hg0 : geth0 bl e.hash < bl := geth0_lt bl e.hash hbl
          have hne0 : e.index ≠ geth0 bl e.hash := by omega
          have hne2 : e.index ≠ geth2 bl e.hash + 2 * bl := by omega
          rw [heq]
          rw [getD_set_self _ _ _ (by omega)]
          rw [getD_set_ne _ _ hne0, getD_set_ne _ _ hne2]
          exact xor_shuffle1 _ _ _
        · have hmem2 : h ∈ L.erase e.hash := (List.mem_erase_of_ne hh).mpr hmem
          have hih := ih (L.erase e.hash) fp hlen ht2 h hmem2
          unfold queryXor at hih ⊢
          have hg0 : geth0 bl h < bl := geth0_lt bl h hbl
          have hne0 : e.index ≠ geth0 bl h := by omega
          have hne1 : e.index ≠ geth1 bl h + bl := by
            intro hcontra
            have hgh : geth1 bl h = e.index - bl := by omega
            have h2 : 2 ≤ cntS (geth1 bl) L (e.index - bl) :=
              two_le_cntS_of_two_mem he3 hmem (fun hc => hh hc.symm) he2 hgh
            omega
          have hne2 : e.index ≠ geth2 bl h + 2 * bl := by omega
          rw [getD_set_ne _ _ hne0, getD_set_ne _ _ hne1, getD_set_ne _ _ hne2]
          exact hih
      · -- the entry peels a segment-2 slot
        obtain ⟨hsf, hro⟩ := slotFun_case2 hb0 hb1
        rw [hsf, hro] at he2 he4
        have heq : geth2 bl e.hash + 2 * bl = e.index := by omega
        rw [assignStep_case2 bl fpP e hb0 hb1]
        by_cases hh : h = e.hash
        · subst hh
          unfold queryXor
          have hg0 : geth0 bl e.hash < bl := geth0_lt bl e.hash hbl
          have hg1 : geth1 bl e.hash < bl := geth1_lt bl e.hash hbl
          have hne0 : e.index ≠ geth0 bl e.hash := by omega
          have hne1 : e.index ≠ geth1 bl e.hash + bl := by omega
          rw [heq]
          rw [getD_set_self _ _ _ (by omega)]
          rw [getD_set_ne _ _ hne0, getD_set_ne _ _ hne1]
          exact xor_shuffle2 _ _ _
        · have hmem2 : h ∈ L.erase e.hash := (List.mem_erase_of_ne hh).mpr hmem
          have hih := ih (L.erase e.hash) fp hlen ht2 h hmem2
          unfold queryXor at hih ⊢
          have hg0 : geth0 bl h < bl := geth0_lt bl h hbl
          have hg1 : geth1 bl h < bl := geth1_lt bl h hbl
          have hne0 : e.index ≠ geth0 bl h := by omega
          have hne1 : e.index ≠ geth1 bl h + bl := by omega
          have hne2 : e.index ≠ geth2 bl h + 2 * bl := by
            intro hcontra
            have hgh : geth2 bl h = e.index - 2 * bl := by omega
            have h2 : 2 ≤ cntS (geth2 bl) L (e.index - 2 * bl) :=
              two_le_cntS_of_two_mem he3 hmem (fun hc => hh hc.symm) he2 hgh
            omega
          rw [getD_set_ne _ _ hne0, getD_set_ne _ _ hne1, getD_set_ne _ _ hne2]
          exact hih

/-! ## Peeling-loop invariants -/

/-- Accumulator invariant of one segment: at unpeeled slots the array
holds exactly the xor and the count of the live hashes mapping there;
peeled slots have no live hashes (their array cell is never read again). -/
def SetsOk (bl : Nat) (g : Nat → Nat) (s : Nat) (stk : List KeyIndex)
    (L : List Nat) (sets : Nat → XorSet) : Prop :=
  ∀ i, (¬ Peeled bl stk s i → sets i = ⟨mskS g L i, cntS g L i⟩) ∧
       (Peeled bl stk s i → cntS g L i = 0)

/-- Queue invariant of one segment: entries address unpeeled in-range
slots with at most one live hash; when exactly one hash is live the entry
carries that hash; queued slots are pairwise distinct. -/
def QueueOk (bl : Nat) (g : Nat → Nat) (s : Nat) (stk : List KeyIndex)
    (L : List Nat) (q : List KeyIndex) : Prop :=
  (∀ e ∈ q, e.index < bl ∧ ¬ Peeled bl stk s e.index ∧
     cntS g L e.index ≤ 1 ∧
     (cntS g L e.index = 1 →
       e.hash ∈ L ∧ g e.hash = e.index ∧ mskS g L e.index = e.hash)) ∧
  q.Pairwise (fun a b => a.index ≠ b.index)

/-- Full peeling invariant, stated generically: segment `sa` is the one
being drained, `sb` and `sc` are the two others in the order the drain
updates them. -/
def InvG (bl : Nat) (hs : List Nat) (sa sb sc : Nat) (L : List Nat)
    (ssets bsets csets : Nat → XorSet) (qa qb qc stk : List KeyIndex) : Prop :=
  SetsOk bl (gseg bl sa) sa stk L ssets ∧
  SetsOk bl (gseg bl sb) sb stk L bsets ∧
  SetsOk bl (gseg bl sc) sc stk L csets ∧
  QueueOk bl (gseg bl sa) sa stk L qa ∧
  QueueOk bl (gseg bl sb) sb stk L qb ∧
  QueueOk bl (gseg bl sc) sc stk L qc ∧
  Trace bl hs stk.reverse L

/-- Peeled slots cannot carry live hashes, so a slot some live hash maps
to is unpeeled. -/
theorem not_Peeled_of_live {bl : Nat} {g : Nat → Nat} {s : Nat}
    {stk : List KeyIndex} {L : List Nat} {sets : Nat → XorSet} {hash : Nat}
    (hSets : SetsOk bl g s stk L sets) (hhash : hash ∈ L) :
    ¬ Peeled bl stk s (g hash) := by
  intro hp
  have h0 := (hSets (g hash)).2 hp
  have h1 : 0 < cntS g L (g hash) := cntS_pos_of_mem hhash rfl
  omega

/-- Preservation of the accumulator invariant of an updated other
segment when peeling `hash` out of segment `sa`. -/
theorem SetsOk_other_step {bl : Nat} (hbl : 0 < bl) {sa s2 : Nat}
    (hne : s2 ≠ sa) {stk : List KeyIndex} {L : List Nat} {sets : Nat → XorSet}
    {hash i : Nat} (hi : i < bl) (hhash : hash ∈ L)
    (hSets : SetsOk bl (gseg bl s2) s2 stk L sets) :
    SetsOk bl (gseg bl s2) s2 ((⟨hash, i + sa * bl⟩ : KeyIndex) :: stk) (L.erase hash)
      (Function.update sets (gseg bl s2 hash)
        ⟨(sets (gseg bl s2 hash)).xor_mask ^^^ hash,
         (sets (gseg bl s2 hash)).count - 1⟩) := by
  set g := gseg bl s2 with hg
  set j := g hash with hj
  have hnp : ¬ Peeled bl stk s2 j := not_Peeled_of_live hSets hhash
  have heq : sets j = ⟨mskS g L j, cntS g L j⟩ := (hSets j).1 hnp
  intro i2
  have hpc := Peeled_cons_iff hbl stk hash sa i hi s2 i2
  constructor
  · intro hnp2
    have hnold : ¬ Peeled bl stk s2 i2 := fun hold => hnp2 (hpc.mpr (Or.inl hold))
    have hold := (hSets i2).1 hnold
    by_cases hij : i2 = j
    · subst hij
      rw [Function.update_same, heq]
      have hc := cntS_erase_of_mem hhash hj.symm
      have hm := mskS_erase_of_mem hhash hj.symm
      have hmask : mskS g L j ^^^ hash = mskS g (L.erase hash) j := hm.symm
      have hcc : cntS g L j - 1 = cntS g (L.erase hash) j := by omega
      show (⟨mskS g L j ^^^ hash, cntS g L j - 1⟩ : XorSet) = _
      rw [hmask, hcc]
    · rw [Function.update_noteq hij, hold]
      have hgne : g hash ≠ i2 := fun hcc => hij (hcc ▸ hj)
      rw [cntS_erase_of_ne hgne, mskS_erase_of_ne hgne]
  · intro hp2
    rcases hpc.mp hp2 with hold | ⟨hcc, -⟩
    · have h0 := (hSets i2).2 hold
      have h1 := cntS_erase_le g L hash i2
      omega
    · exact absurd hcc hne

/-- Preservation of the accumulator invariant of the drained segment
itself (its array is untouched; the popped slot becomes peeled). -/
theorem SetsOk_self_step {bl : Nat} (hbl : 0 < bl) {sa : Nat}
    {stk : List KeyIndex} {L : List Nat} {ssets : Nat → XorSet}
    {hash i : Nat} (hi : i < bl) (hhash : hash ∈ L)
    (hgi : gseg bl sa hash = i) (hcnt : cntS (gseg bl sa) L i = 1)
    (hSets : SetsOk bl (gseg bl sa) sa stk L ssets) :
    SetsOk bl (gseg bl sa) sa ((⟨hash, i + sa * bl⟩ : KeyIndex) :: stk)
      (L.erase hash) ssets := by
  set g := gseg bl sa with hg
  intro i2
  have hpc := Peeled_cons_iff hbl stk hash sa i hi sa i2
  constructor
  · intro hnp2
    have hnold : ¬ Peeled bl stk sa i2 := fun hold => hnp2 (hpc.mpr (Or.inl hold))
    have hii : i2 ≠ i := fun hcc => hnp2 (hpc.mpr (Or.inr ⟨rfl, hcc⟩))
    have hold := (hSets i2).1 hnold
    rw [hold]
    have hgne : g hash ≠ i2 := fun hcc => hii ((hgi ▸ hcc).symm)
    rw [cntS_erase_of_ne hgne, mskS_erase_of_ne hgne]
  · intro hp2
    rcases hpc.mp hp2 with hold | ⟨-, rfl⟩
    · have h0 := (hSets i2).2 hold
      have h1 := cntS_erase_le g L hash i2
      omega
    · have hc := cntS_erase_of_mem hhash hgi
      omega

/-- Preservation of the queue invariant of an updated other segment,
including the conditional push of a freshly-singleton slot. -/
theorem QueueOk_other_step {bl : Nat} (hbl : 0 < bl) {sa s2 : Nat}
    (hne : s2 ≠ sa) {stk : List KeyIndex} {L : List Nat} {sets : Nat → XorSet}
    {q : List KeyIndex} {hash i : Nat} (hi : i < bl) (hhash : hash ∈ L)
    (hSets : SetsOk bl (gseg bl s2) s2 stk L sets)
    (hQ : QueueOk bl (gseg bl s2) s2 stk L q) :
    QueueOk bl (gseg bl s2) s2 ((⟨hash, i + sa * bl⟩ : KeyIndex) :: stk)
      (L.erase hash)
      (if (sets (gseg bl s2 hash)).count - 1 = 1 then
        (⟨(sets (gseg bl s2 hash)).xor_mask ^^^ hash, gseg bl s2 hash⟩ : KeyIndex) :: q
      else q) := by
  set g := gseg bl s2 with hg
  set j := g hash with hj
  have hjlt : j < bl := gseg_lt bl s2 hash hbl
  have hnp : ¬ Peeled bl stk s2 j := not_Peeled_of_live hSets hhash
  have heq : sets j = ⟨mskS g L j, cntS g L j⟩ := (hSets j).1 hnp
  have hcpos : 1 ≤ cntS g L j := cntS_pos_of_mem hhash hj.symm
  have hcerase := cntS_erase_of_mem hhash hj.symm
  have hmerase := mskS_erase_of_mem hhash hj.symm
  -- facts about the surviving old entries
  have holdEntries : ∀ e ∈ q, e.index < bl ∧
      ¬ Peeled bl ((⟨hash, i + sa * bl⟩ : KeyIndex) :: stk) s2 e.index ∧
      cntS g (L.erase hash) e.index ≤ 1 ∧
      (cntS g (L.erase hash) e.index = 1 →
        e.hash ∈ L.erase hash ∧ g e.hash = e.index ∧
        mskS g (L.erase hash) e.index = e.hash) := by
    intro e he
    obtain ⟨he1, he2, he3, he4⟩ := hQ.1 e he
    have hpc := Peeled_cons_iff hbl stk hash sa i hi s2 e.index
    refine ⟨he1, ?_, Nat.le_trans (cntS_erase_le g L hash e.index) he3, ?_⟩
    · intro hp2
      rcases hpc.mp hp2 with hold | ⟨hcc, -⟩
      · exact he2 hold
      · exact hne hcc
    · intro hc1
      by_cases hej : e.index = j
      · rw [hej] at hc1 he3
        omega
      · have hgne : g hash ≠ e.index := fun hcc => hej (hcc ▸ hj)
        rw [cntS_erase_of_ne hgne] at hc1
        obtain ⟨hh1, hh2, hh3⟩ := he4 hc1
        have hhne : e.hash ≠ hash := by
          intro hcc
          rw [hcc] at hh2
          exact hej (hh2.symm.trans hj.symm)
        refine ⟨(List.mem_erase_of_ne hhne).mpr hh1, hh2, ?_⟩
        rw [mskS_erase_of_ne hgne]
        exact hh3
  split_ifs with hpush
  · -- a new singleton is enqueued at slot j
    rw [heq] at hpush
    simp only at hpush
    have hc2 : cntS g L j = 2 := by omega
    have hmval : (sets j).xor_mask ^^^ hash = mskS g (L.erase hash) j := by
      rw [heq, hmerase]
    constructor
    · intro e he
      rcases List.mem_cons.mp he with rfl | hmem
      · have hpc := Peeled_cons_iff hbl stk hash sa i hi s2 j
        refine ⟨hjlt, ?_, ?_, ?_⟩
        · show ¬ Peeled bl ((⟨hash, i + sa * bl⟩ : KeyIndex) :: stk) s2 j
          intro hp2
          rcases hpc.mp hp2 with hold | ⟨hcc, -⟩
          · exact hnp hold
          · exact hne hcc
        · show cntS g (L.erase hash) j ≤ 1
          omega
        · show cntS g (L.erase hash) j = 1 → _
          intro hc1
          obtain ⟨hu1, hu2⟩ := cntS_one_unique hc1
          rw [← hmval] at hu1 hu2
          exact ⟨hu1, hu2, hmval.symm⟩
      · exact holdEntries e hmem
    · refine List.Pairwise.cons ?_ hQ.2
      intro e he hcc
      have hcc2 : j = e.index := hcc
      obtain ⟨-, -, he3, -⟩ := hQ.1 e he
      rw [← hcc2] at he3
      omega
  · exact ⟨holdEntries, hQ.2⟩

/-- Preservation of the drained segment's queue invariant for the
remaining entries after popping one. -/
theorem QueueOk_self_step {bl : Nat} (hbl : 0 < bl) {sa : Nat}
    {stk : List KeyIndex} {L : List Nat}
    {ki : KeyIndex} {rest : List KeyIndex} {hash : Nat}
    (hi : ki.index < bl) (hgi : gseg bl sa hash = ki.index)
    (hQ : QueueOk bl (gseg bl sa) sa stk L (ki :: rest)) :
    QueueOk bl (gseg bl sa) sa ((⟨hash, ki.index + sa * bl⟩ : KeyIndex) :: stk)
      (L.erase hash) rest := by
  set g := gseg bl sa with hg
  have hpw := List.pairwise_cons.mp hQ.2
  constructor
  · intro e he
    obtain ⟨he1, he2, he3, he4⟩ := hQ.1 e (List.mem_cons_of_mem _ he)
    have hei : ki.index ≠ e.index := hpw.1 e he
    have hpc := Peeled_cons_iff hbl stk hash sa ki.index hi sa e.index
    have hgne : g hash ≠ e.index := fun hcc => hei (hgi.symm.trans hcc)
    refine ⟨he1, ?_, Nat.le_trans (cntS_erase_le g L hash e.index) he3, ?_⟩
    · intro hp2
      rcases hpc.mp hp2 with hold | ⟨-, hcc⟩
      · exact he2 hold
      · exact hei hcc.symm
    · intro hc1
      rw [cntS_erase_of_ne hgne] at hc1
      obtain ⟨hh1, hh2, hh3⟩ := he4 hc1
      have hhne : e.hash ≠ hash := by
        intro hcc
        rw [hcc, hgi] at hh2
        exact hei hh2
      refine ⟨(List.mem_erase_of_ne hhne).mpr hh1, hh2, ?_⟩
      rw [mskS_erase_of_ne hgne]
      exact hh3
  · exact hpw.2

/-- Pushing a freshly peeled entry extends the trace. -/
theorem Trace_step {bl : Nat} (hbl : 0 < bl) {sa : Nat} (hsa : sa < 3)
    {hs L : List Nat} {stk : List KeyIndex} {hash i : Nat}
    (hi : i < bl) (hhash : hash ∈ L) (hgi : gseg bl sa hash = i)
    (hcnt : cntS (gseg bl sa) L i = 1)
    (hT : Trace bl hs stk.reverse L) :
    Trace bl hs (((⟨hash, i + sa * bl⟩ : KeyIndex) :: stk).reverse)
      (L.erase hash) := by
  rw [List.reverse_cons]
  have hcomm : i + sa * bl = sa * bl + i := Nat.add_comm _ _
  obtain ⟨hslot, hraw⟩ := slotFun_comp hbl hsa hi
  have hok : entryOk bl L (⟨hash, i + sa * bl⟩ : KeyIndex) := by
    refine ⟨?_, ?_, hhash, ?_⟩
    · show i + sa * bl < 3 * bl
      have : sa * bl ≤ 2 * bl := Nat.mul_le_mul_right bl (by omega)
      omega
    · show slotFun bl (i + sa * bl) hash = rawOf bl (i + sa * bl)
      rw [hcomm, hslot, hraw]
      exact hgi
    · show cntS (slotFun bl (i + sa * bl)) L (rawOf bl (i + sa * bl)) = 1
      rw [hcomm, hslot, hraw]
      exact hcnt
  exact Trace_snoc bl stk.reverse hs L _ hT hok

/-! ## The drain loop preserves the invariant -/

theorem drainAux_nil (gb gc : Nat → Nat) (off : Nat) (sets_s : Nat → XorSet)
    (sb sc : Nat → XorSet) (qb qc stk : List KeyIndex) :
    drainAux gb gc off sets_s [] sb sc qb qc stk = ⟨sb, sc, qb, qc, stk⟩ := rfl

theorem drainAux_cons_stale (gb gc : Nat → Nat) (off : Nat) (sets_s : Nat → XorSet)
    (ki : KeyIndex) (rest : List KeyIndex) (sb sc : Nat → XorSet)
    (qb qc stk : List KeyIndex) (h : (sets_s ki.index).count = 0) :
    drainAux gb gc off sets_s (ki :: rest) sb sc qb qc stk =
      drainAux gb gc off sets_s rest sb sc qb qc stk := by
  simp only [drainAux]
  rw [if_pos h]

theorem drainAux_cons_live (gb gc : Nat → Nat) (off : Nat) (sets_s : Nat → XorSet)
    (ki : KeyIndex) (rest : List KeyIndex) (sb sc : Nat → XorSet)
    (qb qc stk : List KeyIndex) (h : ¬ (sets_s ki.index).count = 0) :
    drainAux gb gc off sets_s (ki :: rest) sb sc qb qc stk =
      drainAux gb gc off sets_s rest
        (Function.update sb (gb ki.hash)
          ⟨(sb (gb ki.hash)).xor_mask ^^^ ki.hash, (sb (gb ki.hash)).count - 1⟩)
        (Function.update sc (gc ki.hash)
          ⟨(sc (gc ki.hash)).xor_mask ^^^ ki.hash, (sc (gc ki.hash)).count - 1⟩)
        (if (sb (gb ki.hash)).count - 1 = 1 then
          (⟨(sb (gb ki.hash)).xor_mask ^^^ ki.hash, gb ki.hash⟩ : KeyIndex) :: qb
         else qb)
        (if (sc (gc ki.hash)).count - 1 = 1 then
          (⟨(sc (gc ki.hash)).xor_mask ^^^ ki.hash, gc ki.hash⟩ : KeyIndex) :: qc
         else qc)
        ((⟨ki.hash, ki.index + off⟩ : KeyIndex) :: stk) := by
  simp only [drainAux]
  rw [if_neg h]

/-- Draining one queue preserves the peeling invariant (for some smaller
live multiset) and empties the drained queue. -/
theorem drainAux_inv (bl : Nat) (hbl : 0 < bl) (hs : List Nat)
    (sa sb sc : Nat) (hsa : sa < 3)
    (hab : sb ≠ sa) (hac : sc ≠ sa) :
    ∀ (q : List KeyIndex) (ssets bsets csets : Nat → XorSet)
      (qb qc stk : List KeyIndex) (L : List Nat),
      InvG bl hs sa sb sc L ssets bsets csets q qb qc stk →
      ∃ L2,
        InvG bl hs sa sb sc L2 ssets
          (drainAux (gseg bl sb) (gseg bl sc) (sa * bl) ssets q bsets csets qb qc stk).setsB
          (drainAux (gseg bl sb) (gseg bl sc) (sa * bl) ssets q bsets csets qb qc stk).setsC
          []
          (drainAux (gseg bl sb) (gseg bl sc) (sa * bl) ssets q bsets csets qb qc stk).qB
          (drainAux (gseg bl sb) (gseg bl sc) (sa * bl) ssets q bsets csets qb qc stk).qC
          (drainAux (gseg bl sb) (gseg bl sc) (sa * bl) ssets q bsets csets qb qc stk).stack := by
  intro q
  induction q with
  | nil =>
    intro ssets bsets csets qb qc stk L hInv
    rw [drainAux_nil]
    exact ⟨L, hInv.1, hInv.2.1, hInv.2.2.1,
      ⟨fun e he => absurd he (List.not_mem_nil e), List.Pairwise.nil⟩,
      hInv.2.2.2.2.1, hInv.2.2.2.2.2.1, hInv.2.2.2.2.2.2⟩
  | cons ki rest ih =>
    intro ssets bsets csets qb qc stk L hInv
    obtain ⟨hSa, hSb, hSc, hQa, hQb, hQc, hT⟩ := hInv
    by_cases hstale : (ssets ki.index).count = 0
    · rw [drainAux_cons_stale _ _ _ _ _ _ _ _ _ _ _ hstale]
      apply ih
      exact ⟨hSa, hSb, hSc,
        ⟨fun e he => hQa.1 e (List.mem_cons_of_mem _ he),
         (List.pairwise_cons.mp hQa.2).2⟩,
        hQb, hQc, hT⟩
    · rw [drainAux_cons_live _ _ _ _ _ _ _ _ _ _ _ hstale]
      obtain ⟨hi, hnp, hle, hone⟩ := hQa.1 ki (List.mem_cons_self ki rest)
      have heqa := (hSa ki.index).1 hnp
      have hcnt1 : cntS (gseg bl sa) L ki.index = 1 := by
        rw [heqa] at hstale
        simp only at hstale
        omega
      obtain ⟨hhash, hgi, hmsk⟩ := hone hcnt1
      apply ih
      exact ⟨SetsOk_self_step hbl hi hhash hgi hcnt1 hSa,
        SetsOk_other_step hbl hab hi hhash hSb,
        SetsOk_other_step hbl hac hi hhash hSc,
        QueueOk_self_step hbl hi hgi hQa,
        QueueOk_other_step hbl hab hi hhash hSb hQb,
        QueueOk_other_step hbl hac hi hhash hSc hQc,
        Trace_step hbl hsa hi hhash hgi hcnt1 hT⟩

/-- The peeling invariant of the full transient state. -/
def Inv (bl : Nat) (hs L : List Nat) (st : PState) : Prop :=
  SetsOk bl (gseg bl 0) 0 st.stack L st.sets0 ∧
  SetsOk bl (gseg bl 1) 1 st.stack L st.sets1 ∧
  SetsOk bl (gseg bl 2) 2 st.stack L st.sets2 ∧
  QueueOk bl (gseg bl 0) 0 st.stack L st.q0 ∧
  QueueOk bl (gseg bl 1) 1 st.stack L st.q1 ∧
  QueueOk bl (gseg bl 2) 2 st.stack L st.q2 ∧
  Trace bl hs st.stack.reverse L

theorem drain0_inv (bl : Nat) (hbl : 0 < bl) (hs : List Nat) (st : PState)
    (L : List Nat) (h : Inv bl hs L st) : ∃ L2, Inv bl hs L2 (drain0 bl st) := by
  obtain ⟨h1, h2, h3, h4, h5, h6, h7⟩ := h
  obtain ⟨L2, g1, g2, g3, g4, g5, g6, g7⟩ :=
    drainAux_inv bl hbl hs 0 1 2 (by omega) (by omega) (by omega)
      st.q0 st.sets0 st.sets1 st.sets2 st.q1 st.q2 st.stack L
      ⟨h1, h2, h3, h4, h5, h6, h7⟩
  rw [Nat.zero_mul] at g1 g2 g3 g4 g5 g6 g7
  exact ⟨L2, g1, g2, g3, g4, g5, g6, g7⟩

theorem drain1_inv (bl : Nat) (hbl : 0 < bl) (hs : List Nat) (st : PState)
    (L : List Nat) (h : Inv bl hs L st) : ∃ L2, Inv bl hs L2 (drain1 bl st) := by
  obtain ⟨h1, h2, h3, h4, h5, h6, h7⟩ := h
  obtain ⟨L2, g1, g2, g3, g4, g5, g6, g7⟩ :=
    drainAux_inv bl hbl hs 1 0 2 (by omega) (by omega) (by omega)
      st.q1 st.sets1 st.sets0 st.sets2 st.q0 st.q2 st.stack L
      ⟨h2, h1, h3, h5, h4, h6, h7⟩
  rw [Nat.one_mul] at g1 g2 g3 g4 g5 g6 g7
  exact ⟨L2, g2, g1, g3, g5, g4, g6, g7⟩

theorem drain2_inv (bl : Nat) (hbl : 0 < bl) (hs : List Nat) (st : PState)
    (L : List Nat) (h : Inv bl hs L st) : ∃ L2, Inv bl hs L2 (drain2 bl st) := by
  obtain ⟨h1, h2, h3, h4, h5, h6, h7⟩ := h
  obtain ⟨L2, g1, g2, g3, g4, g5, g6, g7⟩ :=
    drainAux_inv bl hbl hs 2 0 1 (by omega) (by omega) (by omega)
      st.q2 st.sets2 st.sets0 st.sets1 st.q0 st.q1 st.stack L
      ⟨h3, h1, h2, h6, h4, h5, h7⟩
  exact ⟨L2, g2, g3, g1, g5, g6, g4, g7⟩

theorem peelLoop_inv (bl : Nat) (hbl : 0 < bl) (hs : List Nat) :
    ∀ (fuel : Nat) (st : PState) (L : List Nat) (st2 : PState),
      Inv bl hs L st → peelLoop bl fuel st = some st2 →
      ∃ L2, Inv bl hs L2 st2 := by
  intro fuel
  induction fuel with
  | zero =>
    intro st L st2 h hp
    simp only [peelLoop] at hp
    split_ifs at hp
    exact ⟨L, (Option.some.inj hp) ▸ h⟩
  | succ f ihf =>
    intro st L st2 h hp
    simp only [peelLoop] at hp
    split_ifs at hp with hcond
    · exact ⟨L, (Option.some.inj hp) ▸ h⟩
    · obtain ⟨L0, h0⟩ := drain0_inv bl hbl hs st L h
      obtain ⟨L1, h1⟩ := drain1_inv bl hbl hs _ L0 h0
      obtain ⟨L2x, h2⟩ := drain2_inv bl hbl hs _ L1 h1
      exact ihf _ L2x st2 h2 hp

/-! ## The initial state satisfies the invariant -/

/-- The accumulator array a segmentation pass over live multiset `L`
produces: xor and count of the hashes mapping to each slot. -/
def setsOfL (g : Nat → Nat) (L : List Nat) : Nat → XorSet :=
  fun i => ⟨mskS g L i, cntS g L i⟩

theorem xorSum_append (A B : List Nat) : xorSum (A ++ B) = xorSum A ^^^ xorSum B := by
  induction A with
  | nil => rw [List.nil_append, xorSum_nil, Nat.zero_xor]
  | cons a A ih =>
    rw [List.cons_append, xorSum_cons, xorSum_cons, ih, Nat.xor_assoc]

theorem cntS_append_one (g : Nat → Nat) (L : List Nat) (h i : Nat) :
    cntS g (L ++ [h]) i = cntS g L i + (if g h = i then 1 else 0) := by
  unfold cntS
  rw [List.filter_append]
  by_cases hg : g h = i
  · rw [if_pos hg, List.filter_cons_of_pos (by simpa using hg)]
    simp
  · rw [if_neg hg, List.filter_cons_of_neg (by simpa using hg)]
    simp

theorem mskS_append_one (g : Nat → Nat) (L : List Nat) (h i : Nat) :
    mskS g (L ++ [h]) i = mskS g L i ^^^ (if g h = i then h else 0) := by
  unfold mskS
  rw [List.filter_append, xorSum_append]
  by_cases hg : g h = i
  · rw [if_pos hg, List.filter_cons_of_pos (by simpa using hg)]
    simp [xorSum]
  · rw [if_neg hg, List.filter_cons_of_neg (by simpa using hg)]
    simp [xorSum]

theorem updAdd_setsOfL (g : Nat → Nat) (L : List Nat) (h : Nat) :
    updAdd (setsOfL g L) (g h) h = setsOfL g (L ++ [h]) := by
  funext i
  unfold updAdd setsOfL
  by_cases hgi : g h = i
  · subst hgi
    rw [Function.update_same]
    show (⟨mskS g L (g h) ^^^ h, cntS g L (g h) + 1⟩ : XorSet) = _
    rw [cntS_append_one, mskS_append_one, if_pos rfl, if_pos rfl]
  · rw [Function.update_noteq (fun hcc => hgi hcc.symm)]
    show (⟨mskS g L i, cntS g L i⟩ : XorSet) = _
    rw [cntS_append_one, mskS_append_one, if_neg hgi, if_neg hgi, Nat.xor_zero]
    simp

theorem segmentSets_spec (seed bl : Nat) (keys : List Nat) :
    segmentSets seed bl keys =
      (setsOfL (geth0 bl) (keys.map fun k => mixsplit k seed),
       setsOfL (geth1 bl) (keys.map fun k => mixsplit k seed),
       setsOfL (geth2 bl) (keys.map fun k => mixsplit k seed)) := by
  suffices hgen : ∀ (ks : List Nat) (L : List Nat),
      ks.foldl
        (fun s k =>
          let h := mixsplit k seed
          (updAdd s.1 (geth0 bl h) h, updAdd s.2.1 (geth1 bl h) h,
           updAdd s.2.2 (geth2 bl h) h))
        (setsOfL (geth0 bl) L, setsOfL (geth1 bl) L, setsOfL (geth2 bl) L) =
      (setsOfL (geth0 bl) (L ++ ks.map fun k => mixsplit k seed),
       setsOfL (geth1 bl) (L ++ ks.map fun k => mixsplit k seed),
       setsOfL (geth2 bl) (L ++ ks.map fun k => mixsplit k seed)) by
    have h0 := hgen keys []
    simpa using h0
  intro ks
  induction ks with
  | nil => intro L; simp
  | cons k ks ih =>
    intro L
    rw [List.foldl_cons]
    show (ks.foldl _
      (updAdd (setsOfL (geth0 bl) L) (geth0 bl (mixsplit k seed)) (mixsplit k seed),
       updAdd (setsOfL (geth1 bl) L) (geth1 bl (mixsplit k seed)) (mixsplit k seed),
       updAdd (setsOfL (geth2 bl) L) (geth2 bl (mixsplit k seed)) (mixsplit k seed))) = _
    rw [updAdd_setsOfL, updAdd_setsOfL, updAdd_setsOfL, ih (L ++ [mixsplit k seed])]
    simp

theorem SetsOk_init (bl : Nat) (g : Nat → Nat) (s : Nat) (L : List Nat) :
    SetsOk bl g s [] L (setsOfL g L) :=
  fun i => ⟨fun _ => rfl, fun hp => absurd hp (Peeled_nil bl s i)⟩

theorem scanQ_ok (bl : Nat) (g : Nat → Nat) (s : Nat) (L : List Nat) :
    QueueOk bl g s [] L (scanQ bl (setsOfL g L)) := by
  constructor
  · intro e he
    unfold scanQ at he
    obtain ⟨i, hi, rfl⟩ := List.mem_map.mp he
    have hi2 := List.mem_filter.mp (List.mem_reverse.mp hi)
    have hcnt : cntS g L i = 1 := by
      have := hi2.2
      simpa [setsOfL] using this
    refine ⟨List.mem_range.mp hi2.1, Peeled_nil bl s i,
      by show cntS g L i ≤ 1; omega, ?_⟩
    intro h1
    obtain ⟨hu1, hu2⟩ := cntS_one_unique hcnt
    exact ⟨hu1, hu2, rfl⟩
  · unfold scanQ
    rw [List.pairwise_map]
    have hnd : (((List.range bl).filter
        fun i => (setsOfL g L i).count == 1).reverse).Nodup :=
      List.nodup_reverse.mpr ((List.nodup_range bl).filter _)
    exact List.Pairwise.imp (fun hab => hab) hnd

/-! ## Soundness of a successful attempt -/

/-- A successful `buildAttempt` yields a complete peeling history: the
returned stack peels every master hash of the keys. -/
theorem buildAttempt_sound (seed bl fuel : Nat) (hbl : 0 < bl) (keys : List Nat)
    (stk : List KeyIndex) (h : buildAttempt seed bl fuel keys = some stk) :
    Trace bl (keys.map fun k => mixsplit k seed) stk.reverse [] := by
  have hInit : Inv bl (keys.map fun k => mixsplit k seed)
      (keys.map fun k => mixsplit k seed)
      { sets0 := (segmentSets seed bl keys).1,
        sets1 := (segmentSets seed bl keys).2.1,
        sets2 := (segmentSets seed bl keys).2.2,
        q0 := scanQ bl (segmentSets seed bl keys).1,
        q1 := scanQ bl (segmentSets seed bl keys).2.1,
        q2 := scanQ bl (segmentSets seed bl keys).2.2,
        stack := [] } := by
    rw [segmentSets_spec]
    exact ⟨SetsOk_init bl _ 0 _, SetsOk_init bl _ 1 _, SetsOk_init bl _ 2 _,
      scanQ_ok bl _ 0 _, scanQ_ok bl _ 1 _, scanQ_ok bl _ 2 _, rfl⟩
  simp only [buildAttempt] at h
  split at h
  · exact Option.noConfusion h
  · next st1 hpl =>
    split_ifs at h with hlen
    · have hstk := Option.some.inj h
      obtain ⟨L2, hInv2⟩ := peelLoop_inv bl hbl _ fuel _ _ st1 hInit hpl
      have hT := hInv2.2.2.2.2.2.2
      have hlength := Trace_length bl st1.stack.reverse _ L2 hT
      have hmap : (keys.map fun k => mixsplit k seed).length = keys.length :=
        List.length_map _ _
      have hrev : st1.stack.reverse.length = st1.stack.length :=
        List.length_reverse _
      have hL2 : L2 = [] := List.length_eq_zero.mp (by omega)
      rw [← hstk, ← hL2]
      exact hT

/-- A successful `buildRetry` comes from a successful attempt with the
returned seed. -/
theorem buildRetry_sound (bl : Nat) (keys : List Nat) :
    ∀ (fuel c : Nat) (seed : Nat) (stk : List KeyIndex),
      buildRetry bl keys fuel c = some (seed, stk) →
      ∃ fuel2, buildAttempt seed bl fuel2 keys = some stk := by
  intro fuel
  induction fuel with
  | zero => intro c seed stk h; exact Option.noConfusion h
  | succ f ih =>
    intro c seed stk h
    simp only [buildRetry] at h
    split at h
    · next stk0 heq =>
      have hx := Option.some.inj h
      rw [Prod.mk.injEq] at hx
      rw [hx.1] at heq
      rw [hx.2] at heq
      exact ⟨f + 1, heq⟩
    · exact ih _ seed stk h

/-- Query evaluation of a well-sized filter: when the three-way xor of the
stored fingerprints matches the hash fingerprint, `contains_key` answers
`some true`. -/
theorem contains_key_of_queryXor (F : Xor8) (k : Nat) (hbl : 0 < F.block_length)
    (hlen : F.finger_prints.length = 3 * F.block_length)
    (hq : queryXor F.block_length F.finger_prints (mixsplit k F.seed) =
      fingerprint (mixsplit k F.seed) % 256) :
    F.contains_key k = some true := by
  have hb0 : reduce (mixsplit k F.seed % 2 ^ 32) F.block_length < F.block_length :=
    geth0_lt _ _ hbl
  have hb1 : reduce (rotl64 (mixsplit k F.seed) 21 % 2 ^ 32) F.block_length <
      F.block_length := geth1_lt _ _ hbl
  have hb2 : reduce (rotl64 (mixsplit k F.seed) 42 % 2 ^ 32) F.block_length <
      F.block_length := geth2_lt _ _ hbl
  simp only [Xor8.contains_key]
  rw [getElem?_eq_some_getD F.finger_prints
      (reduce (mixsplit k F.seed % 2 ^ 32) F.block_length) (by omega)]
  rw [getElem?_eq_some_getD F.finger_prints
      (reduce (rotl64 (mixsplit k F.seed) 21 % 2 ^ 32) F.block_length +
        F.block_length) (by omega)]
  rw [getElem?_eq_some_getD F.finger_prints
      (reduce (rotl64 (mixsplit k F.seed) 42 % 2 ^ 32) F.block_length +
        2 * F.block_length) (by omega)]
  unfold queryXor geth0 geth1 geth2 at hq
  show some (fingerprint (mixsplit k F.seed) % 256 ==
    (F.finger_prints.getD (reduce (mixsplit k F.seed % 2 ^ 32) F.block_length) 0 ^^^
     F.finger_prints.getD
       (reduce (rotl64 (mixsplit k F.seed) 21 % 2 ^ 32) F.block_length +
         F.block_length) 0 ^^^
     F.finger_prints.getD
       (reduce (rotl64 (mixsplit k F.seed) 42 % 2 ^ 32) F.block_length +
         2 * F.block_length) 0)) = some true
  rw [hq]
  simp

/-- C1: zero false negatives.  If `build_keys` terminates on a key slice,
then for every key of the slice, `contains_key` on the resulting filter
answers true, because back-substitution establishes the xor identity
`finger_prints[i0] ^ finger_prints[i1] ^ finger_prints[i2] =
fingerprint(h) as u8` for the key's master hash and composite indices. -/
theorem build_keys_no_false_negatives (fuel : Nat) (f g : Xor8) (keys : List Nat)
    (hb : Xor8.build_keys fuel f keys = some g) (k : Nat) (hk : k ∈ keys) :
    g.contains_key k = some true ∧
    queryXor g.block_length g.finger_prints (mixsplit k g.seed) =
      fingerprint (mixsplit k g.seed) % 256 := by
  obtain ⟨seed, stk, hr, rfl⟩ := build_keys_some fuel f g keys hb
  have hbl0 : 0 < capacityOf keys.length / 3 := by
    have h10 := blockLengthOf_ge_ten keys.length
    unfold blockLengthOf at h10
    omega
  obtain ⟨fuel2, hatt⟩ :=
    buildRetry_sound (capacityOf keys.length / 3) keys fuel 1 seed stk hr
  have htrace := buildAttempt_sound seed _ fuel2 hbl0 keys stk hatt
  have hcap3 : capacityOf keys.length = 3 * (capacityOf keys.length / 3) :=
    capacityOf_eq_three_mul keys.length
  have hfpl : (assignAll (capacityOf keys.length / 3) stk
      (List.replicate (capacityOf keys.length) 0)).length =
      3 * (capacityOf keys.length / 3) := by
    rw [assignAll_length, List.length_replicate]
    exact hcap3
  have hquery : queryXor (capacityOf keys.length / 3)
      (assignAll (capacityOf keys.length / 3) stk
        (List.replicate (capacityOf keys.length) 0))
      (mixsplit k seed) = fingerprint (mixsplit k seed) % 256 := by
    rw [assignAll_eq_assignPO]
    exact assignPO_identity _ hbl0 stk.reverse _ _
      (by rw [List.length_replicate]; exact hcap3) htrace (mixsplit k seed)
      (List.mem_map_of_mem _ hk)
  exact ⟨contains_key_of_queryXor _ k hbl0 hfpl hquery, hquery⟩

/-- The filter built from the single digest 42 (computed by the model). -/
def oneBuilt : Xor8 :=
  { keys := some [], seed := 10451216379200822465, block_length := 11,
    finger_prints := [0, 0, 0, 0, 175, 0, 0, 0, 0, 0, 0, 0, 0, 0, 0, 0, 0,
      0, 0, 0, 0, 0, 0, 0, 0, 0, 0, 0, 0, 0, 0, 0, 0] }

/-- C1 witness: the filter built on the digest slice `[42]` answers true
on 42. -/
theorem build_keys_no_false_negatives_witness : oneBuilt.contains_key 42 = some true :=
  (build_keys_no_false_negatives 2 Xor8.with_hasher oneBuilt [42]
    (by decide) 42 (by decide)).1

end Xorfilter
